import Mathlib

/-!
# Verification of the RedYou1/sdl widget framework core

A shallow embedding, in Lean 4, of the data model and operations of the
retained-mode widget framework: the measured text buffer (`UIString`), the
`TextBox` editing state machine, the `Grid` layout engine, the `ScrollView`
scroll state, the deferred-mutation queue (`StateManager`) and the placeholder
unit widget.  `f32` arithmetic is modelled exactly over `ℚ`; Rust `String`s
over `List Char` (byte = char for the ASCII inputs considered); `Result` as
`Except`; a Rust panic as `Option.none`.
-/

namespace SdlSpec

/-- An axis-aligned rectangle in floating pixels (`sdl2::rect::FRect`),
modelled over `ℚ`. -/
structure FRect where
  x : ℚ
  y : ℚ
  w : ℚ
  h : ℚ
deriving DecidableEq, Repr

/-- `red_sdl::zero()`: the zero rectangle. -/
def zeroRect : FRect := ⟨0, 0, 0, 0⟩

/-- A font, abstracted to what `Font::size_of` reports: a width per character
(string width is the sum) and a fixed line height, both in device units. -/
structure Font where
  charW : Char → ℕ
  height : ℕ

/-- Width reported by `font.size_of(text)` for this font model. -/
def Font.widthOf (f : Font) (s : List Char) : ℕ :=
  (s.map f.charW).sum

/-- `missing::ui_string::string_size`: `some (w, h)` when the measured size is
within the `8192 × 8192` bound, `none` ("does not fit") otherwise. -/
def string_size (f : Font) (s : List Char) : Option (ℕ × ℕ) :=
  if f.widthOf s ≤ 8192 ∧ f.height ≤ 8192 then some (f.widthOf s, f.height) else none

/-- `String::insert_str(index, t)` / `String::insert(index, c)`: `none` models
the Rust panic when `index` is out of bounds. -/
def listInsert (buf : List Char) (index : ℕ) (t : List Char) : Option (List Char) :=
  if index ≤ buf.length then some (buf.take index ++ t ++ buf.drop index) else none

/-- `String::drain(start..stop)` collected and removed: `none` models the Rust
panic when `start > stop` or `stop` is out of bounds.  Returns the removed
segment and the remaining buffer. -/
def listDrain (buf : List Char) (start stop : ℕ) : Option (List Char × List Char) :=
  if start ≤ stop ∧ stop ≤ buf.length then
    some ((buf.drop start).take (stop - start), buf.take start ++ buf.drop stop)
  else none

namespace UIString

/-- `UIString::insert`: speculative single-character insertion.  Returns the
new buffer and whether the insertion was kept (`true`) or rolled back
(`false`); `none` models a panic. -/
def insert (f : Font) (buf : List Char) (index : ℕ) (c : Char) :
    Option (List Char × Bool) :=
  match listInsert buf index [c] with
  | none => none
  | some b1 => if (string_size f b1).isSome then some (b1, true) else some (buf, false)

/-- The loop of `UIString::insert_str`, iterating the prefix length `i` from
`text.len()` down to `1`: insert `text[..i]` at `index`; keep it if the result
still measures; otherwise roll back with `self.text.drain(index..i)` — exactly
the range the source drains — and retry with the next shorter prefix. -/
def insertStrGo (f : Font) (index : ℕ) (text : List Char) :
    List Char → ℕ → Option (List Char × ℕ)
  | buf, 0 => some (buf, 0)
  | buf, i + 1 =>
    match listInsert buf index (text.take (i + 1)) with
    | none => none
    | some b1 =>
      if (string_size f b1).isSome then some (b1, i + 1)
      else
        match listDrain b1 index (i + 1) with
        | none => none
        | some (_, b2) => insertStrGo f index text b2 i

/-- `UIString::insert_str`: attempts the longest prefix of `text` that still
fits, returning the new buffer and how many characters were accepted. -/
def insert_str (f : Font) (buf : List Char) (index : ℕ) (text : List Char) :
    Option (List Char × ℕ) :=
  insertStrGo f index text buf text.length

/-- `UIString::drain(start, len)`: speculative removal of
`start..start + len`; rolled back (returning `none` in the inner option) when
the remaining text no longer measures. -/
def drain (f : Font) (buf : List Char) (start len : ℕ) :
    Option (List Char × Option (List Char)) :=
  match listDrain buf start (start + len) with
  | none => none
  | some (removed, rest) =>
    if (string_size f rest).isSome then some (rest, some removed) else some (buf, none)

/-- `UIString::remove(index)`: speculative removal of one character, rolled
back when the remaining text no longer measures. -/
def remove (f : Font) (buf : List Char) (index : ℕ) :
    Option (List Char × Option Char) :=
  match buf.get? index with
  | none => none
  | some c =>
    let rest := buf.take index ++ buf.drop (index + 1)
    if (string_size f rest).isSome then some (rest, some c) else some (buf, none)

end UIString

/-- A font in which every character is 4096 units wide: at most two characters
measure within the 8192-unit budget. -/
def font4096 : Font := ⟨fun _ => 4096, 1⟩

/-- A font in which every character is 1 unit wide. -/
def font1 : Font := ⟨fun _ => 1, 1⟩

/-- Whether the rectangle contains the point (used by event hit-testing). -/
def FRect.containsPoint (r : FRect) (px py : ℚ) : Bool :=
  decide (r.x ≤ px ∧ px ≤ r.x + r.w ∧ r.y ≤ py ∧ py ≤ r.y + r.h)

/-- Modelled from the spec: the mouse button of a click.  The source's
`sdl2::mouse::MouseButton` arrives through `src/lib/src/event.rs`, which is
absent from the sources; only the left button is ever distinguished. -/
inductive MouseButton where
  | left
  | middle
  | right
  | other
deriving DecidableEq, Repr

/-- The key codes the `TextBox` key handler distinguishes
(`sdl2::keyboard::Keycode`).  The ten keypad-digit codes `KP_0 … KP_9`, whose
source arms are identical up to the digit, are collapsed into `kp d`; every
code not named in the handler is `other`. -/
inductive Keycode where
  | lshift
  | rshift
  | lctrl
  | rctrl
  | backspace
  | delete
  | left
  | right
  | space
  | kp (d : Fin 10)
  | v
  | c
  | x
  | a
  | other
deriving DecidableEq, Repr

/-- Modelled from the spec: the `Event` enum of `src/lib/src/event.rs`, which
is absent from the sources.  Variants and fields follow §3 of the spec
(`MouseMotion{buttons,x,y,dx,dy}` keeps only the left-button flag of
`buttons`; `KeyDown/Up{keycode,scancode,modifiers}` drops the unused
`modifiers`); a scancode is represented by its display name, which is what the
source's `scancode.to_string()` inserts. -/
inductive Event where
  | elementMove (x y : ℚ)
  | elementResize (width height : ℚ)
  | mouseMotion (left : Bool) (x y dx dy : ℚ)
  | mouseButtonDown (btn : MouseButton) (clicks : ℕ) (x y : ℚ)
  | mouseButtonUp (btn : MouseButton) (clicks : ℕ) (x y : ℚ)
  | mouseWheel (scrollX scrollY : ℚ) (direction : ℕ) (mouseX mouseY : ℚ)
  | keyDown (keycode : Option Keycode) (scancode : Option (List Char))
  | keyUp (keycode : Option Keycode) (scancode : Option (List Char))
  | textInput (text : List Char)
deriving DecidableEq, Repr

/-- Modelled from the spec: `Event::hover(surface)` of the absent
`src/lib/src/event.rs` — whether a positional event's point lies inside the
rectangle (§4.5: "a primary click inside bounds"); `false` for events that
carry no position. -/
def Event.hover : Event → FRect → Bool
  | .mouseMotion _ x y _ _, r => r.containsPoint x y
  | .mouseButtonDown _ _ x y, r => r.containsPoint x y
  | .mouseButtonUp _ _ x y, r => r.containsPoint x y
  | .mouseWheel _ _ _ x y, r => r.containsPoint x y
  | _, _ => false

/-- The case folding of `TextBox::insert`: `to_uppercase` while shift is
held, `to_lowercase` otherwise (per-character on the ASCII inputs
considered). -/
def foldText (shift : Bool) (text : List Char) : List Char :=
  if shift then text.map Char.toUpper else text.map Char.toLower

/-- The editing state of a `TextBox`: optional selection `(anchor, end?)`,
current bounds, text buffer and the transient modifier flags.  The stored
color/state closures and the font reference are kept outside the state (the
font is passed to each operation). -/
structure TextBoxState where
  selected : Option (ℕ × Option ℕ)
  surface : FRect
  text : List Char
  shift : Bool
  ctrl : Bool
deriving DecidableEq, Repr

namespace TextBox

/-- `TextBox::select`. -/
def select (st : TextBoxState) (index : ℕ) (to_index : Option ℕ) : TextBoxState :=
  { st with selected := some (index, to_index) }

/-- `TextBox::unselect`. -/
def unselect (st : TextBoxState) : TextBoxState :=
  { st with selected := none }

/-- The character walk of `TextBox::position_to_index`: accumulate scaled
character widths left to right until the position is bracketed, rounding to
the nearer boundary by half-width comparison; past the last character the
buffer length is returned. -/
def posToIdxGo (f : Font) (scale : ℚ) : List Char → ℚ → ℕ → ℕ
  | [], _, i => i
  | ch :: cs, pos, i =>
    if (f.charW ch : ℚ) * scale > pos then
      (if (f.charW ch : ℚ) * scale / 2 > pos then i else i + 1)
    else posToIdxGo f scale cs (pos - (f.charW ch : ℚ) * scale) (i + 1)

/-- `TextBox::position_to_index`: map a horizontal fraction of the box width
to the nearest buffer index. -/
def position_to_index (f : Font) (st : TextBoxState) (pos : ℚ) : ℕ :=
  if st.text.isEmpty then 0
  else
    posToIdxGo f (st.surface.w / (f.widthOf st.text : ℚ)) st.text
      (pos * st.surface.w) 0

/-- `TextBox::delete_selection`: drain the selected range (speculatively —
`UIString::drain` rolls back when the remainder would not measure), collapse
the selection to the range start on success, and report the new caret value
of the `index` in-out parameter.  `none` models a panic. -/
def delete_selection (f : Font) (st : TextBoxState) (index to_index : ℕ) :
    Option (ℕ × TextBoxState) :=
  if index < to_index then
    match UIString.drain f st.text index (to_index - index) with
    | none => none
    | some (buf, some _) =>
      some (index, { st with text := buf, selected := some (index, none) })
    | some (buf, none) => some (index, { st with text := buf })
  else
    match UIString.drain f st.text to_index (index - to_index) with
    | none => none
    | some (buf, some _) =>
      some (to_index, { st with text := buf, selected := some (to_index, none) })
    | some (buf, none) => some (index, { st with text := buf })

/-- `TextBox::insert`: delete the selected range if one is present, case-fold
the inserted text by the shift flag, insert the longest fitting prefix at the
caret and place the caret after the accepted text. -/
def insert (f : Font) (st : TextBoxState) (to_index : Option ℕ) (index : ℕ)
    (text : List Char) : Option TextBoxState :=
  match to_index with
  | some t =>
    match delete_selection f st index t with
    | none => none
    | some (idx, st1) => insertFolded f st1 idx text
  | none => insertFolded f st index text
where
  /-- The tail of `TextBox::insert` after the optional selection deletion. -/
  insertFolded (f : Font) (st : TextBoxState) (idx : ℕ) (text : List Char) :
      Option TextBoxState :=
    let folded := foldText st.shift text
    match UIString.insert_str f st.text idx folded with
    | none => none
    | some (buf, tlen) =>
      some { st with text := buf, selected := some (idx + tlen, none) }

/-- The digit character the keypad arm for `KP_d` inserts. -/
def kpChar (d : Fin 10) : Char := Char.ofNat (48 + d.val)

/-- The generic `KeyDown` arm of `TextBox::event`, entered only when a
selection `(index, to_index)` is present.  `clip` is the clipboard content
(`get_clipboard_text`); writing the clipboard (Ctrl+C/X) is modelled as
always succeeding and does not change the widget state. -/
def keyDown (f : Font) (clip : Option (List Char)) (st : TextBoxState)
    (index : ℕ) (to_index : Option ℕ) (kc : Keycode) (sc : List Char) :
    Option TextBoxState :=
  match kc with
  | .backspace =>
    match to_index with
    | some t => (delete_selection f st index t).map Prod.snd
    | none =>
      if index > 0 then
        match UIString.remove f st.text (index - 1) with
        | none => none
        | some (buf, some _) =>
          some { st with text := buf, selected := some (index - 1, none) }
        | some (buf, none) => some { st with text := buf }
      else some st
  | .delete =>
    match to_index with
    | some t => (delete_selection f st index t).map Prod.snd
    | none =>
      if index < st.text.length then
        match UIString.remove f st.text index with
        | none => none
        | some (buf, some _) =>
          some { st with text := buf, selected := some (index, none) }
        | some (buf, none) => some { st with text := buf }
      else some st
  | .left =>
    match to_index with
    | some t =>
      if st.shift then
        (if t > 0 then
          (if index = t - 1 then some (select st index none)
           else some (select st index (some (t - 1))))
         else some st)
      else some (select st (min index t) none)
    | none =>
      if index = 0 then some st
      else if st.shift then some (select st index (some (index - 1)))
      else some (select st (index - 1) none)
  | .right =>
    match to_index with
    | some t =>
      if st.shift then
        (if t < st.text.length then
          (if index = t + 1 then some (select st index none)
           else some (select st index (some (t + 1))))
         else some st)
      else some (select st (max index t) none)
    | none =>
      if index = st.text.length then some st
      else if st.shift then some (select st index (some (index + 1)))
      else some (select st (index + 1) none)
  | .space => insert f st to_index index [' ']
  | .kp d => insert f st to_index index [kpChar d]
  | .v => if st.ctrl then insert f st to_index index (clip.getD []) else insert f st to_index index sc
  | .c => if st.ctrl then some st else insert f st to_index index sc
  | .x =>
    if st.ctrl then
      match to_index with
      | some t =>
        if index ≠ t then (delete_selection f st index t).map Prod.snd else some st
      | none => some st
    else insert f st to_index index sc
  | .a =>
    if st.ctrl then some { st with selected := some (0, some st.text.length) }
    else insert f st to_index index sc
  | _ => if st.ctrl then some st else insert f st to_index index sc

/-- `TextBox::event`.  `enable` is the value of the stored enabled-state
predicate at this call (`(this.state)(..) == StateEnum::Enable`); `clip` is
the clipboard content.  `none` models a panic; the error paths of the source
(`set_clipboard_text`) are modelled as succeeding. -/
def event (f : Font) (enable : Bool) (clip : Option (List Char))
    (st : TextBoxState) : Event → Option TextBoxState
  | .elementMove x y => some { st with surface := { st.surface with x := x, y := y } }
  | .elementResize w h => some { st with surface := { st.surface with w := w, h := h } }
  | ev =>
    if !enable then some st
    else
      match ev.hover st.surface, ev with
      | true, .mouseButtonDown .left _ px _ =>
        if st.shift ∧ st.selected.isSome then
          match st.selected with
          | some (index1, _) =>
            some (select st index1
              (some (position_to_index f st ((px - st.surface.x) / st.surface.w))))
          | none => none
        else
          some (select st (position_to_index f st ((px - st.surface.x) / st.surface.w)) none)
      | false, .mouseButtonDown _ _ _ _ => some (unselect st)
      | true, .mouseMotion mleft px _ _ _ =>
        if mleft then
          match st.selected with
          | some (index1, _) =>
            some (select st index1
              (some (position_to_index f st ((px - st.surface.x) / st.surface.w))))
          | none => some st
        else some st
      | _, .keyDown (some .lshift) (some _) => some { st with shift := true }
      | _, .keyDown (some .rshift) (some _) => some { st with shift := true }
      | _, .keyUp (some .lshift) (some _) => some { st with shift := false }
      | _, .keyUp (some .rshift) (some _) => some { st with shift := false }
      | _, .keyDown (some .lctrl) (some _) => some { st with ctrl := true }
      | _, .keyDown (some .rctrl) (some _) => some { st with ctrl := true }
      | _, .keyUp (some .lctrl) (some _) => some { st with ctrl := false }
      | _, .keyUp (some .rctrl) (some _) => some { st with ctrl := false }
      | _, .keyDown (some kc) (some sc) =>
        match st.selected with
        | some (index, to_index) => keyDown f clip st index to_index kc sc
        | none => some st
      | _, _ => some st

end TextBox

/-- A queued deferred mutation (`Box<dyn FnOnce(Args) -> Result<()>>`).  The
closures run against mutable handles threaded through `Args`; through the
framework's raw `MutRef` aliasing they can reach any state, including the
queue being drained, so an operation is a small program over the pair (shared
state, queue): mutate the state, enqueue a further operation
(`StateManager::add`, push-back), fail, or a sequence of these. -/
inductive SMOp (σ : Type) where
  | run (f : σ → σ)
  | enqueue (o : SMOp σ)
  | fail
  | seq (a b : SMOp σ)

namespace SMOp

/-- Structural size of an operation; the drain terminates because executing an
operation removes it (its full size) and enqueues only its proper parts. -/
def size : SMOp σ → ℕ
  | .run _ => 1
  | .enqueue o => 1 + o.size
  | .fail => 1
  | .seq a b => 1 + a.size + b.size

/-- Total size of a queue of operations. -/
def totalSize (q : List (SMOp σ)) : ℕ := (q.map size).sum

/-- Executing one operation against the shared state and the live queue.
`StateManager::add` pushes to the back of the queue; `.error` models a
`Result` error, which `apply` propagates with `?`. -/
def exec : SMOp σ → σ × List (SMOp σ) → Except Unit (σ × List (SMOp σ))
  | .run f, (s, q) => .ok (f s, q)
  | .enqueue o, (s, q) => .ok (s, q ++ [o])
  | .fail, _ => .error ()
  | .seq a b, sq =>
    match exec a sq with
    | .error e => .error e
    | .ok sq1 => exec b sq1

theorem exec_size {σ : Type} :
    ∀ (op : SMOp σ) (s s' : σ) (q q' : List (SMOp σ)),
      exec op (s, q) = .ok (s', q') → totalSize q' + 1 ≤ totalSize q + op.size := by
  intro op
  induction op with
  | run f => intro s s' q q' h; simp only [exec] at h; cases h; simp [size]
  | enqueue o ih =>
    intro s s' q q' h; simp only [exec] at h; cases h
    simp [size, totalSize]; omega
  | fail => intro s s' q q' h; exact absurd h (by simp [exec])
  | seq a b iha ihb =>
    intro s s' q q' h
    simp only [exec] at h
    cases ha : exec a (s, q) with
    | error e => rw [ha] at h; exact absurd h (by simp)
    | ok sq1 =>
      rw [ha] at h
      obtain ⟨s1, q1⟩ := sq1
      have h1 := iha s s1 q q1 ha
      have h2 := ihb s1 s' q1 q' h
      simp [size]; omega

end SMOp

namespace StateManager

/-- The drain loop of `StateManager::apply`:
`while let Some(func) = self.funcs.pop_front() { edited = true; func(args)?; }`.
The loop pops from the front of the live queue until it is empty, so
operations enqueued during the drain are popped by the same drain. -/
def applyGo {σ : Type} (s : σ) (q : List (SMOp σ)) (edited : Bool) :
    Except Unit (σ × Bool) :=
  match q with
  | [] => .ok (s, edited)
  | f :: rest =>
    match h : SMOp.exec f (s, rest) with
    | .error e => .error e
    | .ok (s', q') => applyGo s' q' true
termination_by SMOp.totalSize q
decreasing_by
  have := SMOp.exec_size f s s' rest q' h
  simp [SMOp.totalSize] at *
  omega

/-- `StateManager::apply`: drain the queue fully, returning the final state
and whether any operation ran. -/
def apply {σ : Type} (q : List (SMOp σ)) (s : σ) : Except Unit (σ × Bool) :=
  applyGo s q false

end StateManager

/-- A grid column spec: fixed pixels or a proportional ratio.  The source's
`RowType` is a verbatim duplicate of `ColType` (same constructors and
methods); both axes are modelled by this one type. -/
inductive ColType where
  | Px (v : ℚ)
  | Ratio (v : ℚ)
deriving DecidableEq, Repr

/-- The row spec type, identical to `ColType` in the source. -/
abbrev RowType := ColType

namespace ColType

/-- `ColType::scale_ration` / `RowType::scale_ration`: divide a proportional
ratio by the total ratio, leave fixed sizes alone. -/
def scale_ration : ColType → ℚ → ColType
  | .Px f, _ => .Px f
  | .Ratio f, total => .Ratio (f / total)

/-- `ColType::to_px` / `RowType::to_px`: resolve a spec against the remaining
pixel extent. -/
def to_px : ColType → ℚ → ℚ
  | .Px f, _ => f
  | .Ratio f, total => f * total

end ColType

/-- The accumulation of `self.static_x` over the specs of one axis: the sum of
the fixed pixel sizes. -/
def staticSum : List ColType → ℚ
  | [] => 0
  | .Px v :: t => v + staticSum t
  | .Ratio _ :: t => staticSum t

/-- The accumulation of `dyn_x` over the specs of one axis: the sum of the
proportional ratios. -/
def ratioSum : List ColType → ℚ
  | [] => 0
  | .Px _ :: t => ratioSum t
  | .Ratio v :: t => v + ratioSum t

/-- The renormalization pass `*col = col.scale_ration(dyn_x)` applied to every
spec of an axis. -/
def renorm (cols : List ColType) : List ColType :=
  cols.map (·.scale_ration (ratioSum cols))

/-- The inner walk of `Grid::reform` along one axis: starting from pixel
offset `p`, each spec resolves to `(offset, extent)` and advances the running
offset by its extent. -/
def colCells (p remain : ℚ) : List ColType → List (ℚ × ℚ)
  | [] => []
  | c :: t => (p, c.to_px remain) :: colCells (p + c.to_px remain) remain t

/-- A grid cell position (`grid::Pos`). -/
structure Pos where
  x : ℕ
  y : ℕ
deriving DecidableEq, Repr

/-- The layout error of `Grid::reform` ("Not enough space: requested {}x{} in
a grid of {}x{}"), carrying the requested fixed extents and the available grid
extents. -/
structure LayoutError where
  requestedX : ℚ
  requestedY : ℚ
  availableW : ℚ
  availableH : ℚ
deriving DecidableEq, Repr

/-- The state of a `Grid` whose children are leaf widgets that do nothing but
store the bounds sent to them (the shape of the `Button` child in the
repository's own grid test): its own surface, the two spec axes, and the
occupied cells with each child's current surface.  The cached `static_x` /
`static_y` fields, written by `reform` and read only by its error message, are
not carried. -/
structure GridState where
  surface : FRect
  cols : List ColType
  rows : List RowType
  elements : List (Pos × FRect)
deriving DecidableEq, Repr

/-- The offsets-and-extents of the resolved columns of a grid, as the walk of
`Grid::reform` computes them: the renormalized columns (`cols'`) walked from
`surface.x` against `remain_width`, the width remaining after the fixed
allocations. -/
def colSpans (g : GridState) : List (ℚ × ℚ) :=
  colCells g.surface.x (g.surface.w - staticSum g.cols) (renorm g.cols)

/-- The offsets-and-extents of the resolved rows of a grid. -/
def rowSpans (g : GridState) : List (ℚ × ℚ) :=
  colCells g.surface.y (g.surface.h - staticSum g.rows) (renorm g.rows)

/-- The state left by the walk of `Grid::reform` (its rows/columns loop) for
rect-storing leaf children: the renormalized spec axes are written back, and
every occupied in-range cell's child holds its resolved rectangle (a child
whose position or size already matches is simply not sent the corresponding
event; the stored bounds are its cell rectangle either way; out-of-range
cells are never visited by the walk). -/
def reformed (g : GridState) : GridState :=
  { g with
    cols := renorm g.cols
    rows := renorm g.rows
    elements := g.elements.map fun pr =>
      match (colSpans g).get? pr.1.x, (rowSpans g).get? pr.1.y with
      | some (px, w), some (py, h) => (pr.1, ⟨px, py, w, h⟩)
      | _, _ => pr }

namespace Grid

/-- `Grid::reform`: accumulate the fixed sums, renormalize both axes, fail
when the fixed sizes exceed the grid's extent (`remain_width < 0` or
`remain_height < 0`), otherwise walk rows and columns giving every occupied
cell its resolved rectangle (`reformed`). -/
def reform (g : GridState) : Except LayoutError GridState :=
  let sx := staticSum g.cols
  let sy := staticSum g.rows
  let remainW := g.surface.w - sx
  let remainH := g.surface.h - sy
  if remainW < 0 ∨ remainH < 0 then
    .error ⟨sx, sy, g.surface.w, g.surface.h⟩
  else
    .ok (reformed g)

/-- `Grid::event` for a grid of rect-storing leaf children: `ElementMove`
translates every child by the grid's own delta, `ElementResize` re-runs the
full layout — but only when the received size differs from the stored one —
and any other event is broadcast to the children (which, being leaves that
only react to move/resize, do not change). -/
def event (g : GridState) : Event → Except LayoutError GridState
  | .elementMove x y =>
    if x ≠ g.surface.x ∨ y ≠ g.surface.y then
      let dx := x - g.surface.x
      let dy := y - g.surface.y
      .ok { g with
            surface := { g.surface with x := x, y := y }
            elements := g.elements.map fun pr =>
              (pr.1, { pr.2 with x := pr.2.x + dx, y := pr.2.y + dy }) }
    else .ok g
  | .elementResize w h =>
    if w ≠ g.surface.w ∨ h ≠ g.surface.h then
      reform { g with surface := { g.surface with w := w, h := h } }
    else .ok g
  | _ => .ok g

end Grid

/-- Rust `f32::clamp(lo, hi)` for exact rationals. -/
def qclamp (x lo hi : ℚ) : ℚ := min (max x lo) hi

/-- The state of a `ScrollView` whose single child is a leaf widget that only
stores the bounds sent to it: own surface, declared logical content size
`child_size`, the visible-window rectangle `child_surface` inside content
space, the child's stored bounds, the two scroll fractions and the two
thumb-drag flags. -/
structure SVState where
  surface : FRect
  child_size : ℚ × ℚ
  child_surface : FRect
  child : FRect
  h_scroll : ℚ
  v_scroll : ℚ
  h_selected : Bool
  v_selected : Bool
deriving DecidableEq, Repr

namespace ScrollView

/-- `ScrollView::new(child, child_width, child_height, color)`. -/
def new (childW childH : ℚ) : SVState :=
  { surface := zeroRect
    child_size := (childW, childH)
    child_surface := zeroRect
    child := zeroRect
    h_scroll := 0
    v_scroll := 0
    h_selected := false
    v_selected := false }

/-- `ScrollView::h_scroll()`: the horizontal scrollbar-thumb rectangle.
Thumb length `max(30, 2*viewportExtent - contentExtent)`, position
`scrollFraction * (viewportExtent - thumbLength)` from the viewport origin. -/
def hScrollRect (sv : SVState) : FRect :=
  let w := max (2 * sv.surface.w - sv.child_size.1) 30
  ⟨sv.surface.x + sv.h_scroll * (sv.surface.w - w),
   sv.surface.y + sv.surface.h - 30, w, 30⟩

/-- `ScrollView::v_scroll()`: the vertical scrollbar-thumb rectangle. -/
def vScrollRect (sv : SVState) : FRect :=
  let h := max (2 * sv.surface.h - sv.child_size.2) 30
  ⟨sv.surface.x + sv.surface.w - 30,
   sv.surface.y + sv.v_scroll * (sv.surface.h - h), 30, h⟩

/-- The horizontal scrollbar block of `ScrollView::event`, entered when the
content is wider than the viewport: returns the updated state and whether the
source's early `return Ok(())` fires. -/
def hBlock (sv : SVState) (ev : Event) : SVState × Bool :=
  if sv.child_size.1 > sv.surface.w then
    let hr := hScrollRect sv
    match ev with
    | .mouseMotion mleft px _ _ _ =>
      if mleft ∧ sv.h_selected then
        ({ sv with
           h_scroll := qclamp ((px - sv.surface.x - hr.w / 2) / (sv.surface.w - hr.w)) 0 1 },
         true)
      else (sv, false)
    | .mouseButtonDown .left _ px py =>
      let sel := hr.containsPoint px py
      ({ sv with h_selected := sel }, sel)
    | .mouseButtonUp _ _ _ _ => ({ sv with h_selected := false }, false)
    | _ => (sv, false)
  else (sv, false)

/-- The vertical scrollbar block of `ScrollView::event`, symmetric to
`hBlock`. -/
def vBlock (sv : SVState) (ev : Event) : SVState × Bool :=
  if sv.child_size.2 > sv.surface.h then
    let vr := vScrollRect sv
    match ev with
    | .mouseMotion mleft _ py _ _ =>
      if mleft ∧ sv.v_selected then
        ({ sv with
           v_scroll := qclamp ((py - sv.surface.y - vr.h / 2) / (sv.surface.h - vr.h)) 0 1 },
         true)
      else (sv, false)
    | .mouseButtonDown .left _ px py =>
      let sel := vr.containsPoint px py
      ({ sv with v_selected := sel }, sel)
    | .mouseButtonUp _ _ _ _ => ({ sv with v_selected := false }, false)
    | _ => (sv, false)
  else (sv, false)

/-- The horizontal half of the wheel handling in `ScrollView::event`'s
forwarding arm: `h_scroll = (h_scroll - scroll_x * 0.1).clamp(0, 1)` when the
content is wider than the viewport. -/
def wheelH (sv : SVState) (sx : ℚ) : SVState :=
  if sv.child_size.1 > sv.surface.w then
    { sv with h_scroll := qclamp (sv.h_scroll - sx * (1 / 10)) 0 1 }
  else sv

/-- The vertical half of the wheel handling. -/
def wheelV (sv : SVState) (sy : ℚ) : SVState :=
  if sv.child_size.2 > sv.surface.h then
    { sv with v_scroll := qclamp (sv.v_scroll - sy * (1 / 10)) 0 1 }
  else sv

/-- The event-forwarding tail of `ScrollView::event`: a mouse-wheel event
first adjusts each scroll fraction by `-scroll * 0.1`, clamped to `[0, 1]`,
on the axes where content exceeds the viewport; the (coordinate-remapped)
event is then forwarded to the leaf child, which reacts only to move/resize
and therefore does not change here. -/
def forward (sv : SVState) (ev : Event) : SVState :=
  match ev with
  | .mouseWheel sx sy _ _ _ => wheelV (wheelH sv sx) sy
  | _ => sv

/-- The body of `ScrollView::event` past the move/resize early returns: the
horizontal scrollbar block, the vertical scrollbar block (each able to return
early), then the forwarding tail. -/
def eventTail (sv : SVState) (ev : Event) : SVState :=
  let (sv1, ret1) := hBlock sv ev
  if ret1 then sv1
  else
    let (sv2, ret2) := vBlock sv1 ev
    if ret2 then sv2 else forward sv2 ev

/-- `ScrollView::event` for a leaf child. -/
def event (sv : SVState) (ev : Event) : SVState :=
  match ev with
  | .elementMove x y => { sv with surface := { sv.surface with x := x, y := y } }
  | .elementResize w h => { sv with surface := { sv.surface with w := w, h := h } }
  | _ => eventTail sv ev

/-- `ScrollView::update` for a leaf child: re-home and re-size the child to
the declared logical content size, then recompute the visible window
rectangle from the current scroll fractions. -/
def update (sv : SVState) : SVState :=
  let sv1 :=
    if 0 ≠ sv.child.x ∨ 0 ≠ sv.child.y then
      { sv with child := { sv.child with x := 0, y := 0 } }
    else sv
  let sv2 :=
    if sv1.child_size.1 ≠ sv.child.w ∨ sv1.child_size.2 ≠ sv.child.h then
      { sv1 with child := { sv1.child with w := sv1.child_size.1, h := sv1.child_size.2 } }
    else sv1
  let a := sv2.child_size.1
  let b := sv2.child_size.2
  let s := sv2.surface
  { sv2 with
    child_surface :=
      ⟨sv2.h_scroll * (a - s.w), sv2.v_scroll * (b - s.h), min s.w a, min s.h b⟩ }

/-- One stimulus delivered to a `ScrollView`: an event, or one tick
(`update`). -/
inductive Input where
  | ev (e : Event)
  | tick
deriving Repr

/-- Deliver a stimulus. -/
def step (sv : SVState) : Input → SVState
  | .ev e => event sv e
  | .tick => update sv

/-- Run a sequence of stimuli from a state. -/
def run (sv : SVState) (l : List Input) : SVState :=
  l.foldl step sv

end ScrollView

/-- `impl UserControl for ()`, the placeholder "empty" widget: its `surface`
is the zero rectangle and every other contract operation fails.  The unused
parent/state/canvas arguments are kept as type parameters. -/
def unitSurface {Parent State : Type} (_ : Parent) (_ : State) : FRect := zeroRect

/-- `<() as UserControl>::event`: always fails. -/
def unitEvent {Parent State : Type} (_ : Event) (_ : Parent) (_ : State) :
    Except String Unit :=
  .error "unit type used as a UserControl"

/-- `<() as UserControl>::update`: always fails.  `elapsed` is the frame
duration in seconds. -/
def unitUpdate {Parent State : Type} (_ : ℚ) (_ : Parent) (_ : State) :
    Except String Unit :=
  .error "unit type used as a UserControl"

/-- `<() as UserControl>::draw`: always fails. -/
def unitDraw {Parent State : Type} (_ : Parent) (_ : State) : Except String Unit :=
  .error "unit type used as a UserControl"

/-- The spans `(offset, extent)` exactly tile the segment
`[start, start + extent]`: every extent is nonnegative (no overlap), every
span begins exactly where the previous spans end (no gap, no overlap), and
the extents exhaust the segment. -/
def TilesExactly (start extent : ℚ) (spans : List (ℚ × ℚ)) : Prop :=
  (∀ s ∈ spans, 0 ≤ s.2)
  ∧ (∀ k : ℕ, ∀ a ∈ spans.get? k, a.1 = start + ((spans.take k).map Prod.snd).sum)
  ∧ (spans.map Prod.snd).sum = extent

/-- Every proportional spec of the axis receives the extent
`(ratio / sum of ratios) * remain`: its renormalized share of the remaining
space. -/
def ProportionalShares (cols : List ColType) (remain : ℚ)
    (spans : List (ℚ × ℚ)) : Prop :=
  ∀ (k : ℕ) (v : ℚ), cols.get? k = some (.Ratio v) →
    (spans.get? k).map Prod.snd = some (v / ratioSum cols * remain)

/-- Every fixed spec of the axis is nonnegative. -/
def allPxNonneg : List ColType → Bool
  | [] => true
  | .Px v :: t => decide (0 ≤ v) && allPxNonneg t
  | .Ratio _ :: t => allPxNonneg t

/-- Every proportional spec of the axis has a positive ratio. -/
def allRatioPos : List ColType → Bool
  | [] => true
  | .Px _ :: t => allRatioPos t
  | .Ratio v :: t => decide (0 < v) && allRatioPos t

/-- The axis contains at least one proportional spec. -/
def hasRatio : List ColType → Bool
  | [] => false
  | .Px _ :: t => hasRatio t
  | .Ratio _ :: _ => true

/-- A deferred mutation over a shared `ℕ` counter that increments the counter
and enqueues one further increment — the shape of the spec's
"three queued mutations whose execution queues three more" scenario. -/
def bumpOp : SMOp ℕ := .seq (.run Nat.succ) (.enqueue (.run Nat.succ))

/-- The `TextBox` selection invariant: whenever a selection is present, its
anchor — and its end, when the selection is a range — lie within
`[0, buffer length]`. -/
def SelWF (st : TextBoxState) : Prop :=
  ∀ p ∈ st.selected, p.1 ≤ st.text.length ∧ ∀ t ∈ p.2, t ≤ st.text.length

/-- Run a list of events through `TextBox::event` (a panic aborts the run). -/
def TextBox.runEvents (f : Font) (enable : Bool) (clip : Option (List Char))
    (st : TextBoxState) : List Event → Option TextBoxState
  | [] => some st
  | e :: rest =>
    match TextBox.event f enable clip st e with
    | none => none
    | some st' => TextBox.runEvents f enable clip st' rest

/-- A 50×50 grid whose fixed specs sum to 60 on both axes. -/
def gridOverflow : GridState :=
  ⟨⟨0, 0, 50, 50⟩, [.Px 30, .Px 30], [.Px 30, .Px 30], [(⟨0, 0⟩, zeroRect)]⟩

/-- A 50×50 grid whose only column is `Px 10` (fixed sum 10 ≤ 50, no
proportional column): the resolved columns cover only 10 of the 50 pixels. -/
def gridGap : GridState :=
  ⟨⟨0, 0, 50, 50⟩, [.Px 10], [.Ratio 1], [(⟨0, 0⟩, zeroRect)]⟩

/-- A 50×50 grid with a fixed 10-pixel column, two proportional columns of
ratios 1 and 3, and one proportional row. -/
def gridMixed : GridState :=
  ⟨⟨0, 0, 50, 50⟩, [.Px 10, .Ratio 1, .Ratio 3], [.Ratio 1], [(⟨1, 0⟩, zeroRect)]⟩

/-- A 50×50 one-cell grid whose child's stored bounds (10×10) disagree with
the layout (a full pass would resolve the cell to 50×50). -/
def gridStale : GridState :=
  ⟨⟨0, 0, 50, 50⟩, [.Ratio 1], [.Ratio 1], [(⟨0, 0⟩, ⟨0, 0, 10, 10⟩)]⟩

/-- A `ScrollView` with 30×30 content squeezed into a 20×20 viewport, after a
wheel event that moves the horizontal fraction to 1. -/
def svSmallViewport : SVState :=
  ScrollView.run (ScrollView.new 30 30)
    [.ev (.elementResize 20 20), .ev (.mouseWheel (-10) 0 0 0 0)]

/-- The stimuli of the C7 witness run: viewport resized to 40×40, then one
wheel click on both axes. -/
def svWitnessInputs : List ScrollView.Input :=
  [.ev (.elementResize 40 40), .ev (.mouseWheel (-5) (-5) 0 0 0)]

/-- A `ScrollView` with 50×50 content in a 40×40 viewport, scrolled to the
half-way fraction on both axes. -/
def svWitness : SVState := ScrollView.run (ScrollView.new 50 50) svWitnessInputs

/-- The case-folding `TextBox::insert` applies to inserted text: uppercase
while shift is held, lowercase otherwise. -/
def foldedClip (shift : Bool) (clip : Option (List Char)) : List Char :=
  foldText shift (clip.getD [])

/-- The caret position after the optional selection deletion: the lower bound
of the range when one is present, the bare caret otherwise. -/
def caretAfterDelete (index : ℕ) (to_index : Option ℕ) : ℕ :=
  match to_index with
  | some t => min index t
  | none => index

/-- The buffer after the optional selection deletion: the selected range
excised when one is present. -/
def bufAfterDelete (text : List Char) (index : ℕ) (to_index : Option ℕ) : List Char :=
  match to_index with
  | some t => text.take (min index t) ++ text.drop (max index t)
  | none => text

/-- A never-clicked `TextBox` holding "hi": no selection. -/
def tbNoSelection : TextBoxState :=
  ⟨none, ⟨0, 0, 10, 10⟩, ['h', 'i'], false, false⟩

/-- An enabled `TextBox` holding "abcd" with the range 1–3 selected and ctrl
held. -/
def tbPasteRange : TextBoxState :=
  ⟨some (1, some 3), ⟨0, 0, 10, 10⟩, ['a', 'b', 'c', 'd'], false, true⟩

/-- An empty enabled `TextBox` with a bare caret at 0 and ctrl held. -/
def tbPasteTarget : TextBoxState :=
  ⟨some (0, none), ⟨0, 0, 10, 10⟩, [], false, true⟩

/-!
## Theorems

One theorem per claim of the specification, with counterexamples and
witnesses where required.
-/

/-- C1: refuted — inserting `"xy"` at index 1 of the buffer `"ab"` under a
font where no three characters measure (so no prefix of `"xy"` fits) returns
0 accepted characters but leaves the buffer as `"axyb"`, not byte-for-byte
unchanged: the rollback `self.text.drain(index..i)` drains the wrong range
(it should be `index..index + i`), which only coincides when `index = 0`. -/
theorem insertStr_rollback_corrupts_buffer :
    UIString.insert_str font4096 ['a', 'b'] 1 ['x', 'y'] = some (['a', 'x', 'y', 'b'], 0)
    ∧ (string_size font4096 ['a', 'x', 'b']).isNone = true
    ∧ (string_size font4096 ['a', 'x', 'y', 'b']).isNone = true
    ∧ ['a', 'x', 'y', 'b'] ≠ ['a', 'b'] := by decide

/-- C9: the placeholder unit widget's `surface` returns the zero rectangle
for every parent and state, and `event`, `update` and `draw` each return an
error for all arguments. -/
theorem unit_widget_always_fails {Parent State : Type} (p : Parent) (s : State)
    (e : Event) (elapsed : ℚ) :
    unitSurface p s = zeroRect
    ∧ unitEvent e p s = .error "unit type used as a UserControl"
    ∧ unitUpdate elapsed p s = .error "unit type used as a UserControl"
    ∧ unitDraw p s = .error "unit type used as a UserControl" :=
  ⟨rfl, rfl, rfl, rfl⟩

/-- C3: whenever the fixed column widths sum to more than the grid's width,
or the fixed row heights to more than its height, `reform` returns the layout
error naming the requested fixed extents and the available grid extents, and
produces no rectangles. -/
theorem reform_overflow_errors (g : GridState)
    (h : g.surface.w < staticSum g.cols ∨ g.surface.h < staticSum g.rows) :
    Grid.reform g =
      .error ⟨staticSum g.cols, staticSum g.rows, g.surface.w, g.surface.h⟩ := by
  have hc : g.surface.w - staticSum g.cols < 0 ∨ g.surface.h - staticSum g.rows < 0 := by
    rcases h with h | h
    · left; linarith
    · right; linarith
  simp only [Grid.reform, if_pos hc]

/-- C3 witness: a 50×50 grid with fixed specs summing to 60 on both axes
yields the layout error `requested 60×60, available 50×50`. -/
theorem reform_overflow_errors_witness :
    Grid.reform gridOverflow = .error ⟨60, 60, 50, 50⟩ := by
  have h := reform_overflow_errors gridOverflow
    (by left; norm_num [gridOverflow, staticSum])
  rw [h]
  norm_num [gridOverflow, staticSum]

/-- The drain of `StateManager::apply` over `n` counter-bumping operations
that each enqueue one further counter bump, followed by `m` plain bumps:
every operation — including the ones enqueued during the drain — runs in the
same drain, leaving the counter at `c + 2n + m`. -/
theorem applyGo_bump (n : ℕ) :
    ∀ (m c : ℕ) (ed : Bool),
      StateManager.applyGo c
          (List.replicate n bumpOp ++ List.replicate m (SMOp.run Nat.succ)) ed
        = .ok (c + 2 * n + m, ed || decide (0 < n + m)) := by
  induction n with
  | zero =>
    intro m
    induction m with
    | zero => intro c ed; simp [StateManager.applyGo]
    | succ m ihm =>
      intro c ed
      rw [List.replicate_zero, List.nil_append] at ihm ⊢
      rw [List.replicate_succ]
      rw [StateManager.applyGo]
      simp only [SMOp.exec]
      rw [ihm (c + 1) true]
      have ha : c + 1 + 2 * 0 + m = c + 2 * 0 + (m + 1) := by omega
      have hb : (true || decide (0 < 0 + m)) = (ed || decide (0 < 0 + (m + 1))) := by
        have : decide (0 < 0 + (m + 1)) = true := by simp
        rw [this, Bool.true_or, Bool.or_true]
      rw [ha, hb]
  | succ n ihn =>
    intro m c ed
    rw [List.replicate_succ, List.cons_append]
    rw [StateManager.applyGo]
    simp only [SMOp.exec]
    have hq : (List.replicate n bumpOp ++ List.replicate m (SMOp.run Nat.succ))
        ++ [SMOp.run Nat.succ]
        = List.replicate n bumpOp ++ List.replicate (m + 1) (SMOp.run Nat.succ) := by
      rw [List.append_assoc, ← List.replicate_succ']
    simp only [bumpOp] at hq ihn ⊢
    rw [hq]
    rw [ihn (m + 1) (Nat.succ c) true]
    have ha : Nat.succ c + 2 * n + (m + 1) = c + 2 * (n + 1) + m := by omega
    have hb : (true || decide (0 < n + (m + 1))) = (ed || decide (0 < n + 1 + m)) := by
      have : decide (0 < n + 1 + m) = true := by simp
      rw [this, Bool.true_or, Bool.or_true]
    rw [ha, hb]

/-- C4 (amended): a single drain of `apply` runs queued operations in FIFO
order until the queue is empty, so an operation enqueued during the drain
also runs in that same drain: `n` queued counter bumps that each enqueue one
further bump leave the counter at `s + 2n` after one `apply`, which reports
whether any operation ran. -/
theorem apply_runs_operations_enqueued_during_drain (n s : ℕ) :
    StateManager.apply (List.replicate n bumpOp) s = .ok (s + 2 * n, decide (0 < n)) := by
  have h := applyGo_bump n 0 s false
  simpa using h

/-- C4 counterexample: a queue of three counter bumps that each enqueue one
further bump leaves the counter at 6 after a single drain — not at 3, as
"only the operations queued before the drain began run" would demand. -/
theorem apply_three_plus_three_runs_six :
    StateManager.apply (List.replicate 3 bumpOp) 0 = .ok (6, true)
    ∧ ((6, true) : ℕ × Bool) ≠ (3, true) := by
  constructor
  · have h := applyGo_bump 3 0 0 false
    simpa using h
  · decide

theorem colCells_map_snd (r : ℚ) (l : List ColType) :
    ∀ p : ℚ, (colCells p r l).map Prod.snd = l.map (·.to_px r) := by
  induction l with
  | nil => intro p; simp [colCells]
  | cons c t ih => intro p; simp [colCells, ih]

theorem colCells_get? (r : ℚ) (l : List ColType) :
    ∀ (p : ℚ) (k : ℕ), (colCells p r l).get? k
      = (l.get? k).map fun c => (p + ((l.take k).map (·.to_px r)).sum, c.to_px r) := by
  induction l with
  | nil => intro p k; simp [colCells]
  | cons c t ih =>
    intro p k
    cases k with
    | zero => simp [colCells]
    | succ k =>
      rw [show colCells p r (c :: t) = (p, c.to_px r) :: colCells (p + c.to_px r) r t from rfl]
      rw [show ((p, c.to_px r) :: colCells (p + c.to_px r) r t).get? (k + 1)
        = (colCells (p + c.to_px r) r t).get? k from rfl]
      rw [ih (p + c.to_px r) k]
      rw [show (c :: t).get? (k + 1) = t.get? k from rfl]
      rw [show (c :: t).take (k + 1) = c :: t.take k from rfl]
      cases h : t.get? k with
      | none => rfl
      | some d => simp [List.map_cons, List.sum_cons, add_assoc]

theorem scale_to_px_sum (r t : ℚ) (l : List ColType) :
    ((l.map (·.scale_ration t)).map (·.to_px r)).sum
      = staticSum l + ratioSum l / t * r := by
  induction l with
  | nil => simp [staticSum, ratioSum]
  | cons c tl ih =>
    cases c with
    | Px v =>
      rw [show ((ColType.Px v :: tl).map (·.scale_ration t)).map (·.to_px r)
          = v :: (tl.map (·.scale_ration t)).map (·.to_px r) from rfl]
      rw [List.sum_cons, ih]
      rw [show staticSum (ColType.Px v :: tl) = v + staticSum tl from rfl,
          show ratioSum (ColType.Px v :: tl) = ratioSum tl from rfl]
      ring
    | Ratio v =>
      rw [show ((ColType.Ratio v :: tl).map (·.scale_ration t)).map (·.to_px r)
          = (v / t * r) :: (tl.map (·.scale_ration t)).map (·.to_px r) from rfl]
      rw [List.sum_cons, ih]
      rw [show staticSum (ColType.Ratio v :: tl) = staticSum tl from rfl,
          show ratioSum (ColType.Ratio v :: tl) = v + ratioSum tl from rfl]
      ring

theorem allPxNonneg_mem {l : List ColType} (h : allPxNonneg l = true) :
    ∀ v : ℚ, ColType.Px v ∈ l → 0 ≤ v := by
  induction l with
  | nil => intro v hv; simp at hv
  | cons c t ih =>
    intro v hv
    rcases List.mem_cons.mp hv with heq | hmem
    · subst heq
      simp only [allPxNonneg, Bool.and_eq_true, decide_eq_true_eq] at h
      exact h.1
    · cases c with
      | Px w =>
        simp only [allPxNonneg, Bool.and_eq_true] at h
        exact ih h.2 v hmem
      | Ratio w =>
        simp only [allPxNonneg] at h
        exact ih h v hmem

theorem allRatioPos_mem {l : List ColType} (h : allRatioPos l = true) :
    ∀ v : ℚ, ColType.Ratio v ∈ l → 0 < v := by
  induction l with
  | nil => intro v hv; simp at hv
  | cons c t ih =>
    intro v hv
    rcases List.mem_cons.mp hv with heq | hmem
    · subst heq
      simp only [allRatioPos, Bool.and_eq_true, decide_eq_true_eq] at h
      exact h.1
    · cases c with
      | Px w =>
        simp only [allRatioPos] at h
        exact ih h v hmem
      | Ratio w =>
        simp only [allRatioPos, Bool.and_eq_true] at h
        exact ih h.2 v hmem

theorem ratioSum_nonneg {l : List ColType} (h : allRatioPos l = true) :
    0 ≤ ratioSum l := by
  induction l with
  | nil => simp [ratioSum]
  | cons c t ih =>
    cases c with
    | Px v => simp only [ratioSum, allRatioPos] at *; exact ih h
    | Ratio v =>
      simp only [ratioSum, allRatioPos, Bool.and_eq_true, decide_eq_true_eq] at *
      have := ih h.2
      linarith [h.1]

theorem ratioSum_pos {l : List ColType} (hr : hasRatio l = true)
    (h : allRatioPos l = true) : 0 < ratioSum l := by
  induction l with
  | nil => simp [hasRatio] at hr
  | cons c t ih =>
    cases c with
    | Px v => simp only [ratioSum, hasRatio, allRatioPos] at *; exact ih hr h
    | Ratio v =>
      simp only [ratioSum, allRatioPos, Bool.and_eq_true, decide_eq_true_eq] at *
      have := ratioSum_nonneg h.2
      linarith [h.1]

theorem ratioSum_of_no_ratio {l : List ColType} (hr : hasRatio l = false) :
    ratioSum l = 0 := by
  induction l with
  | nil => simp [ratioSum]
  | cons c t ih =>
    cases c with
    | Px v => simp only [ratioSum, hasRatio] at *; exact ih hr
    | Ratio v => simp [hasRatio] at hr

theorem hasRatio_of_mem {l : List ColType} {v : ℚ} (h : ColType.Ratio v ∈ l) :
    hasRatio l = true := by
  induction l with
  | nil => simp at h
  | cons c t ih =>
    rcases List.mem_cons.mp h with heq | hmem
    · subst heq; simp [hasRatio]
    · cases c with
      | Px w => simp only [hasRatio]; exact ih hmem
      | Ratio w => simp [hasRatio]

theorem renorm_to_px_nonneg {l : List ColType} (hpx : allPxNonneg l = true)
    (hrp : allRatioPos l = true) {r : ℚ} (hr : 0 ≤ r) :
    ∀ c ∈ renorm l, 0 ≤ c.to_px r := by
  intro c hc
  rcases List.mem_map.mp hc with ⟨c0, hc0, rfl⟩
  cases c0 with
  | Px v => exact allPxNonneg_mem hpx v hc0
  | Ratio v =>
    have hv := allRatioPos_mem hrp v hc0
    have hs := ratioSum_pos (hasRatio_of_mem hc0) hrp
    show 0 ≤ v / ratioSum l * r
    positivity

theorem renorm_widths_sum (l : List ColType) (r : ℚ) :
    ((renorm l).map (·.to_px r)).sum = staticSum l + ratioSum l / ratioSum l * r :=
  scale_to_px_sum r (ratioSum l) l

/-- One axis of the layout pass tiles its segment exactly, under nonnegative
fixed sizes, positive ratios, fixed sum not exceeding the extent, and either
a proportional spec present or the fixed sum equal to the extent. -/
theorem axis_tiles (l : List ColType) (start extent : ℚ)
    (hpx : allPxNonneg l = true) (hrp : allRatioPos l = true)
    (hs : staticSum l ≤ extent)
    (hd : hasRatio l = true ∨ staticSum l = extent) :
    TilesExactly start extent (colCells start (extent - staticSum l) (renorm l)) := by
  have hrem : 0 ≤ extent - staticSum l := by linarith
  refine ⟨?_, ?_, ?_⟩
  · intro s hmem
    have h2 : s.2 ∈ (colCells start (extent - staticSum l) (renorm l)).map Prod.snd :=
      List.mem_map.mpr ⟨s, hmem, rfl⟩
    rw [colCells_map_snd] at h2
    rcases List.mem_map.mp h2 with ⟨c, hc, hcp⟩
    rw [← hcp]
    exact renorm_to_px_nonneg hpx hrp hrem c hc
  · intro k a ha
    rw [colCells_get? (extent - staticSum l) (renorm l) start k] at ha
    cases hg : (renorm l).get? k with
    | none => rw [hg] at ha; simp at ha
    | some c =>
      rw [hg] at ha
      simp only [Option.map_some', Option.mem_def, Option.some.injEq] at ha
      subst ha
      have hmap : (colCells start (extent - staticSum l) (renorm l)).map Prod.snd
          = (renorm l).map (·.to_px (extent - staticSum l)) :=
        colCells_map_snd _ _ _
      conv_rhs => rw [List.map_take, hmap, ← List.map_take]
  · rw [colCells_map_snd, renorm_widths_sum]
    cases hhr : hasRatio l with
    | true =>
      have hne := ne_of_gt (ratioSum_pos hhr hrp)
      rw [div_self hne]
      ring
    | false =>
      rw [ratioSum_of_no_ratio hhr]
      rcases hd with hd | hd
      · rw [hd] at hhr; cases hhr
      · rw [hd]; ring

/-- One axis of the layout pass gives every proportional spec its
renormalized share `(ratio / sum of ratios) * remaining`. -/
theorem axis_proportional (l : List ColType) (start extent : ℚ) :
    ProportionalShares l (extent - staticSum l)
      (colCells start (extent - staticSum l) (renorm l)) := by
  intro k v hk
  rw [colCells_get? (extent - staticSum l) (renorm l) start k]
  have hg : (renorm l).get? k = some (ColType.Ratio (v / ratioSum l)) := by
    rw [renorm, List.get?_map, hk]
    rfl
  rw [hg]
  rfl

/-- C2 (amended): for a grid whose fixed specs are nonnegative and sum to at
most the grid extent on each axis, whose proportional ratios are positive,
and where each axis either contains a proportional spec or has its fixed
sizes sum exactly to the grid extent, the layout pass succeeds, the resolved
columns and rows exactly tile the grid's width and height (nonnegative
extents, each span starting where the previous ones end, extents exhausting
the axis), every proportional spec receives its renormalized share
`ratio / (sum of ratios) * remaining`, and every occupied in-range cell's
child ends bounded by exactly the spanned rectangle. -/
theorem grid_layout_tiles_and_is_proportional (g : GridState)
    (hpxc : allPxNonneg g.cols = true) (hrpc : allRatioPos g.cols = true)
    (hpxr : allPxNonneg g.rows = true) (hrpr : allRatioPos g.rows = true)
    (hsc : staticSum g.cols ≤ g.surface.w) (hsr : staticSum g.rows ≤ g.surface.h)
    (hdc : hasRatio g.cols = true ∨ staticSum g.cols = g.surface.w)
    (hdr : hasRatio g.rows = true ∨ staticSum g.rows = g.surface.h) :
    ∃ g', Grid.reform g = .ok g'
      ∧ TilesExactly g.surface.x g.surface.w (colSpans g)
      ∧ TilesExactly g.surface.y g.surface.h (rowSpans g)
      ∧ ProportionalShares g.cols (g.surface.w - staticSum g.cols) (colSpans g)
      ∧ ProportionalShares g.rows (g.surface.h - staticSum g.rows) (rowSpans g)
      ∧ ∀ pr ∈ g'.elements,
          ∀ cs ∈ (colSpans g).get? pr.1.x, ∀ rs ∈ (rowSpans g).get? pr.1.y,
            pr.2 = ⟨cs.1, rs.1, cs.2, rs.2⟩ := by
  have hcond : ¬ (g.surface.w - staticSum g.cols < 0 ∨ g.surface.h - staticSum g.rows < 0) := by
    push_neg
    constructor <;> linarith
  refine ⟨reformed g, ?_,
    axis_tiles g.cols g.surface.x g.surface.w hpxc hrpc hsc hdc,
    axis_tiles g.rows g.surface.y g.surface.h hpxr hrpr hsr hdr,
    axis_proportional g.cols g.surface.x g.surface.w,
    axis_proportional g.rows g.surface.y g.surface.h, ?_⟩
  · simp only [Grid.reform, if_neg hcond]
  · intro pr hpr cs hcs rs hrs
    simp only [reformed] at hpr
    rcases List.mem_map.mp hpr with ⟨pr0, hpr0, heq⟩
    rcases hmc : (colSpans g).get? pr0.1.x with _ | cs0
    · rw [hmc] at heq
      simp only [] at heq
      rw [← heq] at hcs
      rw [hmc] at hcs
      simp at hcs
    · rcases hmr : (rowSpans g).get? pr0.1.y with _ | rs0
      · rw [hmc, hmr] at heq
        simp only [] at heq
        rw [← heq] at hrs
        rw [hmr] at hrs
        simp at hrs
      · obtain ⟨cpx, cw⟩ := cs0
        obtain ⟨rpy, rh⟩ := rs0
        rw [hmc, hmr] at heq
        simp only [] at heq
        rw [← heq] at hcs hrs ⊢
        simp only [Option.mem_def] at hcs hrs
        rw [hmc] at hcs
        rw [hmr] at hrs
        cases hcs
        cases hrs
        rfl

/-- C2 witness: the mixed 50×50 grid (fixed 10-pixel column plus proportional
columns of ratios 1 and 3) satisfies every hypothesis, so its layout tiles
both axes exactly and shares the remaining 40 pixels 1:3. -/
theorem grid_layout_tiles_witness :
    ∃ g', Grid.reform gridMixed = .ok g'
      ∧ TilesExactly gridMixed.surface.x gridMixed.surface.w (colSpans gridMixed)
      ∧ TilesExactly gridMixed.surface.y gridMixed.surface.h (rowSpans gridMixed)
      ∧ ProportionalShares gridMixed.cols
          (gridMixed.surface.w - staticSum gridMixed.cols) (colSpans gridMixed)
      ∧ ProportionalShares gridMixed.rows
          (gridMixed.surface.h - staticSum gridMixed.rows) (rowSpans gridMixed)
      ∧ ∀ pr ∈ g'.elements,
          ∀ cs ∈ (colSpans gridMixed).get? pr.1.x,
          ∀ rs ∈ (rowSpans gridMixed).get? pr.1.y,
            pr.2 = ⟨cs.1, rs.1, cs.2, rs.2⟩ :=
  grid_layout_tiles_and_is_proportional gridMixed
    (by decide) (by decide) (by decide) (by decide)
    (by norm_num [gridMixed, staticSum])
    (by norm_num [gridMixed, staticSum])
    (Or.inl (by decide)) (Or.inl (by decide))

/-- C2 counterexample: a 50×50 grid whose single column spec is `Px 10`
(fixed sum 10 ≤ 50, as the claim's hypothesis requires) lays out without
error, yet its resolved columns cover only 10 of the 50 pixels: with no
proportional column to absorb the remaining 40 pixels, the cells do not tile
the grid's width. -/
theorem grid_fixed_axis_does_not_tile :
    staticSum gridGap.cols ≤ gridGap.surface.w
    ∧ staticSum gridGap.rows ≤ gridGap.surface.h
    ∧ Grid.reform gridGap = .ok (reformed gridGap)
    ∧ ¬ TilesExactly gridGap.surface.x gridGap.surface.w (colSpans gridGap) := by
  refine ⟨by norm_num [gridGap, staticSum], by norm_num [gridGap, staticSum], ?_, ?_⟩
  · norm_num [Grid.reform, gridGap, staticSum]
  · rintro ⟨-, -, hsum⟩
    have hv : ((colSpans gridGap).map Prod.snd).sum = 10 := by
      norm_num [colSpans, gridGap, staticSum, renorm, ratioSum,
        ColType.scale_ration, colCells, ColType.to_px]
    rw [hv] at hsum
    norm_num [gridGap] at hsum

theorem qclamp_nonneg (x : ℚ) : 0 ≤ qclamp x 0 1 :=
  le_min (le_max_right x 0) (by norm_num)

theorem qclamp_le_one (x : ℚ) : qclamp x 0 1 ≤ 1 :=
  min_le_right _ _

/-- Both scroll fractions of a `ScrollView` lie in `[0, 1]`. -/
def ScrollInv (sv : SVState) : Prop :=
  0 ≤ sv.h_scroll ∧ sv.h_scroll ≤ 1 ∧ 0 ≤ sv.v_scroll ∧ sv.v_scroll ≤ 1

theorem hBlock_inv (sv : SVState) (ev : Event) (h : ScrollInv sv) :
    ScrollInv (ScrollView.hBlock sv ev).1 := by
  obtain ⟨h1, h2, h3, h4⟩ := h
  cases ev <;> (try rename_i btn clicks px py; cases btn) <;>
    simp only [ScrollView.hBlock] <;> (try split_ifs) <;>
    first
      | exact ⟨h1, h2, h3, h4⟩
      | exact ⟨qclamp_nonneg _, qclamp_le_one _, h3, h4⟩

theorem vBlock_inv (sv : SVState) (ev : Event) (h : ScrollInv sv) :
    ScrollInv (ScrollView.vBlock sv ev).1 := by
  obtain ⟨h1, h2, h3, h4⟩ := h
  cases ev <;> (try rename_i btn clicks px py; cases btn) <;>
    simp only [ScrollView.vBlock] <;> (try split_ifs) <;>
    first
      | exact ⟨h1, h2, h3, h4⟩
      | exact ⟨h1, h2, qclamp_nonneg _, qclamp_le_one _⟩

theorem wheelH_inv (sv : SVState) (sx : ℚ) (h : ScrollInv sv) :
    ScrollInv (ScrollView.wheelH sv sx) := by
  obtain ⟨h1, h2, h3, h4⟩ := h
  unfold ScrollView.wheelH
  split_ifs
  · exact ⟨qclamp_nonneg _, qclamp_le_one _, h3, h4⟩
  · exact ⟨h1, h2, h3, h4⟩

theorem wheelV_inv (sv : SVState) (sy : ℚ) (h : ScrollInv sv) :
    ScrollInv (ScrollView.wheelV sv sy) := by
  obtain ⟨h1, h2, h3, h4⟩ := h
  unfold ScrollView.wheelV
  split_ifs
  · exact ⟨h1, h2, qclamp_nonneg _, qclamp_le_one _⟩
  · exact ⟨h1, h2, h3, h4⟩

theorem forward_inv (sv : SVState) (ev : Event) (h : ScrollInv sv) :
    ScrollInv (ScrollView.forward sv ev) := by
  cases ev <;> first
    | exact h
    | exact wheelV_inv _ _ (wheelH_inv _ _ h)

theorem eventTail_inv (sv : SVState) (ev : Event) (h : ScrollInv sv) :
    ScrollInv (ScrollView.eventTail sv ev) := by
  unfold ScrollView.eventTail
  rcases hsv1 : ScrollView.hBlock sv ev with ⟨sv1, ret1⟩
  have hb := hBlock_inv sv ev h
  rw [hsv1] at hb
  simp only []
  split
  · exact hb
  · rcases hsv2 : ScrollView.vBlock sv1 ev with ⟨sv2, ret2⟩
    have vb := vBlock_inv sv1 ev hb
    rw [hsv2] at vb
    simp only []
    split
    · exact vb
    · exact forward_inv sv2 ev vb

theorem event_inv (sv : SVState) (ev : Event) (h : ScrollInv sv) :
    ScrollInv (ScrollView.event sv ev) := by
  obtain ⟨h1, h2, h3, h4⟩ := h
  cases ev <;>
    first
      | exact ⟨h1, h2, h3, h4⟩
      | exact eventTail_inv sv _ ⟨h1, h2, h3, h4⟩

theorem update_inv (sv : SVState) (h : ScrollInv sv) :
    ScrollInv (ScrollView.update sv) := by
  obtain ⟨h1, h2, h3, h4⟩ := h
  simp only [ScrollView.update]
  split_ifs <;> exact ⟨h1, h2, h3, h4⟩

theorem step_inv (sv : SVState) (i : ScrollView.Input) (h : ScrollInv sv) :
    ScrollInv (ScrollView.step sv i) := by
  cases i with
  | ev e => exact event_inv sv e h
  | tick => exact update_inv sv h

theorem run_inv (l : List ScrollView.Input) :
    ∀ sv : SVState, ScrollInv sv → ScrollInv (ScrollView.run sv l) := by
  induction l with
  | nil => intro sv h; exact h
  | cons i rest ih =>
    intro sv h
    exact ih (ScrollView.step sv i) (step_inv sv i h)

/-- For a viewport strictly wider than the 30-pixel minimum thumb and content
wider than the viewport, the horizontal thumb stays within
`[viewportOrigin, viewportOrigin + viewportExtent - thumbLength]`. -/
theorem hThumb_in_bounds (sv : SVState) (hI : ScrollInv sv)
    (hw : 30 < sv.surface.w) (hc : sv.surface.w < sv.child_size.1) :
    sv.surface.x ≤ (ScrollView.hScrollRect sv).x
    ∧ (ScrollView.hScrollRect sv).x
        ≤ sv.surface.x + sv.surface.w - (ScrollView.hScrollRect sv).w := by
  obtain ⟨h1, h2, _, _⟩ := hI
  have hthumb : (ScrollView.hScrollRect sv).w
      = max (2 * sv.surface.w - sv.child_size.1) 30 := rfl
  have hx : (ScrollView.hScrollRect sv).x
      = sv.surface.x + sv.h_scroll * (sv.surface.w - (ScrollView.hScrollRect sv).w) := rfl
  have hle : (ScrollView.hScrollRect sv).w ≤ sv.surface.w := by
    rw [hthumb]
    apply max_le <;> linarith
  have hnn : 0 ≤ sv.surface.w - (ScrollView.hScrollRect sv).w := by linarith
  constructor
  · rw [hx]
    nlinarith
  · rw [hx]
    nlinarith

/-- The vertical analogue of `hThumb_in_bounds`. -/
theorem vThumb_in_bounds (sv : SVState) (hI : ScrollInv sv)
    (hh : 30 < sv.surface.h) (hc : sv.surface.h < sv.child_size.2) :
    sv.surface.y ≤ (ScrollView.vScrollRect sv).y
    ∧ (ScrollView.vScrollRect sv).y
        ≤ sv.surface.y + sv.surface.h - (ScrollView.vScrollRect sv).h := by
  obtain ⟨_, _, h3, h4⟩ := hI
  have hthumb : (ScrollView.vScrollRect sv).h
      = max (2 * sv.surface.h - sv.child_size.2) 30 := rfl
  have hy : (ScrollView.vScrollRect sv).y
      = sv.surface.y + sv.v_scroll * (sv.surface.h - (ScrollView.vScrollRect sv).h) := rfl
  have hle : (ScrollView.vScrollRect sv).h ≤ sv.surface.h := by
    rw [hthumb]
    apply max_le <;> linarith
  have hnn : 0 ≤ sv.surface.h - (ScrollView.vScrollRect sv).h := by linarith
  constructor
  · rw [hy]
    nlinarith
  · rw [hy]
    nlinarith

/-- C7 (amended): from a fresh `ScrollView` with any declared content size,
after any sequence of events and ticks both scroll fractions are in `[0, 1]`;
and whenever the viewport extent exceeds the 30-pixel minimum thumb length
and the content exceeds the viewport on an axis, that axis's thumb rectangle
stays within `[viewportOrigin, viewportOrigin + viewportExtent -
thumbLength]`, the thumb length being `max(30, 2*viewportExtent -
contentExtent)`. -/
theorem scrollview_fraction_and_thumb_bounds (cw ch : ℚ)
    (l : List ScrollView.Input) :
    (0 ≤ (ScrollView.run (ScrollView.new cw ch) l).h_scroll
      ∧ (ScrollView.run (ScrollView.new cw ch) l).h_scroll ≤ 1
      ∧ 0 ≤ (ScrollView.run (ScrollView.new cw ch) l).v_scroll
      ∧ (ScrollView.run (ScrollView.new cw ch) l).v_scroll ≤ 1)
    ∧ (30 < (ScrollView.run (ScrollView.new cw ch) l).surface.w →
        (ScrollView.run (ScrollView.new cw ch) l).surface.w
            < (ScrollView.run (ScrollView.new cw ch) l).child_size.1 →
        (ScrollView.run (ScrollView.new cw ch) l).surface.x
            ≤ (ScrollView.hScrollRect (ScrollView.run (ScrollView.new cw ch) l)).x
        ∧ (ScrollView.hScrollRect (ScrollView.run (ScrollView.new cw ch) l)).x
            ≤ (ScrollView.run (ScrollView.new cw ch) l).surface.x
              + (ScrollView.run (ScrollView.new cw ch) l).surface.w
              - (ScrollView.hScrollRect (ScrollView.run (ScrollView.new cw ch) l)).w)
    ∧ (30 < (ScrollView.run (ScrollView.new cw ch) l).surface.h →
        (ScrollView.run (ScrollView.new cw ch) l).surface.h
            < (ScrollView.run (ScrollView.new cw ch) l).child_size.2 →
        (ScrollView.run (ScrollView.new cw ch) l).surface.y
            ≤ (ScrollView.vScrollRect (ScrollView.run (ScrollView.new cw ch) l)).y
        ∧ (ScrollView.vScrollRect (ScrollView.run (ScrollView.new cw ch) l)).y
            ≤ (ScrollView.run (ScrollView.new cw ch) l).surface.y
              + (ScrollView.run (ScrollView.new cw ch) l).surface.h
              - (ScrollView.vScrollRect (ScrollView.run (ScrollView.new cw ch) l)).h) := by
  have hI : ScrollInv (ScrollView.run (ScrollView.new cw ch) l) := by
    apply run_inv
    refine ⟨le_refl 0, ?_, le_refl 0, ?_⟩ <;> norm_num [ScrollView.new]
  exact ⟨hI, fun hw hc => hThumb_in_bounds _ hI hw hc,
    fun hh hc => vThumb_in_bounds _ hI hh hc⟩

/-- C7 witness: after resizing the 50×50-content scroll view to a 40×40
viewport and one wheel click, both fractions are in `[0, 1]` and both thumbs
are within their tracks. -/
theorem scrollview_bounds_witness :
    (0 ≤ svWitness.h_scroll ∧ svWitness.h_scroll ≤ 1
      ∧ 0 ≤ svWitness.v_scroll ∧ svWitness.v_scroll ≤ 1)
    ∧ (svWitness.surface.x ≤ (ScrollView.hScrollRect svWitness).x
      ∧ (ScrollView.hScrollRect svWitness).x
          ≤ svWitness.surface.x + svWitness.surface.w - (ScrollView.hScrollRect svWitness).w)
    ∧ (svWitness.surface.y ≤ (ScrollView.vScrollRect svWitness).y
      ∧ (ScrollView.vScrollRect svWitness).y
          ≤ svWitness.surface.y + svWitness.surface.h - (ScrollView.vScrollRect svWitness).h) := by
  have h := scrollview_fraction_and_thumb_bounds 50 50 svWitnessInputs
  have hw : (30 : ℚ) < svWitness.surface.w := by
    norm_num [svWitness, svWitnessInputs, ScrollView.run, ScrollView.step, ScrollView.new,
      ScrollView.event, ScrollView.eventTail, ScrollView.hBlock, ScrollView.vBlock,
      ScrollView.forward, ScrollView.wheelH, ScrollView.wheelV, qclamp, min_def, max_def]
  have hcw : svWitness.surface.w < svWitness.child_size.1 := by
    norm_num [svWitness, svWitnessInputs, ScrollView.run, ScrollView.step, ScrollView.new,
      ScrollView.event, ScrollView.eventTail, ScrollView.hBlock, ScrollView.vBlock,
      ScrollView.forward, ScrollView.wheelH, ScrollView.wheelV, qclamp, min_def, max_def]
  have hh : (30 : ℚ) < svWitness.surface.h := by
    norm_num [svWitness, svWitnessInputs, ScrollView.run, ScrollView.step, ScrollView.new,
      ScrollView.event, ScrollView.eventTail, ScrollView.hBlock, ScrollView.vBlock,
      ScrollView.forward, ScrollView.wheelH, ScrollView.wheelV, qclamp, min_def, max_def]
  have hch : svWitness.surface.h < svWitness.child_size.2 := by
    norm_num [svWitness, svWitnessInputs, ScrollView.run, ScrollView.step, ScrollView.new,
      ScrollView.event, ScrollView.eventTail, ScrollView.hBlock, ScrollView.vBlock,
      ScrollView.forward, ScrollView.wheelH, ScrollView.wheelV, qclamp, min_def, max_def]
  exact ⟨h.1, h.2.1 hw hcw, h.2.2 hh hch⟩

/-- C7 counterexample: with 30×30 content in a 20×20 viewport (content larger
than the viewport on both axes) and the horizontal fraction wheeled to 1, the
thumb rectangle `max(30, 2·20-30) = 30` pixels long sits at
`x = 0 + 1·(20-30) = -10`, strictly left of the viewport origin: the claimed
interval `[viewportOrigin, viewportOrigin + viewportExtent - thumbLength]` is
violated (it is empty when the viewport is narrower than the thumb). -/
theorem scrollview_thumb_leaves_viewport :
    svSmallViewport.surface.w < svSmallViewport.child_size.1
    ∧ svSmallViewport.surface.h < svSmallViewport.child_size.2
    ∧ ¬ (svSmallViewport.surface.x ≤ (ScrollView.hScrollRect svSmallViewport).x
        ∧ (ScrollView.hScrollRect svSmallViewport).x
            ≤ svSmallViewport.surface.x + svSmallViewport.surface.w
              - (ScrollView.hScrollRect svSmallViewport).w) := by
  refine ⟨?_, ?_, ?_⟩ <;>
    norm_num [svSmallViewport, ScrollView.run, ScrollView.step, ScrollView.new,
      ScrollView.event, ScrollView.eventTail, ScrollView.hBlock, ScrollView.vBlock,
      ScrollView.forward, ScrollView.wheelH, ScrollView.wheelV, ScrollView.hScrollRect,
      qclamp, min_def, max_def]

/-- C10: while the selection state is `None`, every `KeyDown` event — Ctrl+A,
Ctrl+V, Backspace, Delete, arrows, printable keys, for any keycode/scancode
and whether or not the box is enabled — leaves the text buffer, the (absent)
selection and the bounds unchanged; only the shift/ctrl flags may change. -/
theorem keydown_without_selection_is_inert (f : Font) (enable : Bool)
    (clip : Option (List Char)) (st : TextBoxState)
    (okc : Option Keycode) (osc : Option (List Char))
    (h : st.selected = none) :
    ∃ st', TextBox.event f enable clip st (.keyDown okc osc) = some st'
      ∧ st'.text = st.text ∧ st'.selected = none ∧ st'.surface = st.surface := by
  cases enable
  · exact ⟨st, by simp [TextBox.event], rfl, h, rfl⟩
  · cases okc with
    | none => exact ⟨st, by simp [TextBox.event, Event.hover, h], rfl, h, rfl⟩
    | some kc =>
      cases osc with
      | none =>
        refine ⟨st, ?_, rfl, h, rfl⟩
        cases kc <;> simp [TextBox.event, Event.hover, h]
      | some sc =>
        cases kc
        case lshift => exact ⟨{ st with shift := true }, by simp [TextBox.event, Event.hover], rfl, h, rfl⟩
        case rshift => exact ⟨{ st with shift := true }, by simp [TextBox.event, Event.hover], rfl, h, rfl⟩
        case lctrl => exact ⟨{ st with ctrl := true }, by simp [TextBox.event, Event.hover], rfl, h, rfl⟩
        case rctrl => exact ⟨{ st with ctrl := true }, by simp [TextBox.event, Event.hover], rfl, h, rfl⟩
        all_goals exact ⟨st, by simp [TextBox.event, Event.hover, h], rfl, h, rfl⟩

/-- C10 witness: a Backspace delivered to the never-clicked "hi" box changes
nothing. -/
theorem keydown_without_selection_is_inert_witness :
    ∃ st', TextBox.event font1 true none tbNoSelection
        (.keyDown (some .backspace) (some ['B'])) = some st'
      ∧ st'.text = tbNoSelection.text ∧ st'.selected = none
      ∧ st'.surface = tbNoSelection.surface :=
  keydown_without_selection_is_inert font1 true none tbNoSelection
    (some .backspace) (some ['B']) rfl

theorem widthOf_append (f : Font) (a b : List Char) :
    f.widthOf (a ++ b) = f.widthOf a + f.widthOf b := by
  simp [Font.widthOf]

theorem string_size_isSome (f : Font) (s : List Char) :
    (string_size f s).isSome = true ↔ (f.widthOf s ≤ 8192 ∧ f.height ≤ 8192) := by
  unfold string_size
  split_ifs with hc <;> simp [hc]

theorem widthOf_drop_le (f : Font) (l : List Char) (k : ℕ) :
    f.widthOf (l.drop k) ≤ f.widthOf l := by
  conv_rhs => rw [← List.take_append_drop k l]
  rw [widthOf_append]
  omega

/-- Removing a middle segment of a measured buffer keeps it measured: string
width is additive in this font model, so an excised buffer is no wider. -/
theorem excise_fits (f : Font) (buf : List Char) (a b : ℕ) (hab : a ≤ b)
    (h : (string_size f buf).isSome = true) :
    (string_size f (buf.take a ++ buf.drop b)).isSome = true := by
  rw [string_size_isSome] at h ⊢
  refine ⟨?_, h.2⟩
  rw [widthOf_append]
  have h1 : f.widthOf (buf.take a) + f.widthOf (buf.drop a) = f.widthOf buf := by
    rw [← widthOf_append, List.take_append_drop]
  have h2 : f.widthOf (buf.drop b) ≤ f.widthOf (buf.drop a) := by
    have hd : buf.drop b = (buf.drop a).drop (b - a) := by
      rw [List.drop_drop]
      congr 1
      omega
    rw [hd]
    exact widthOf_drop_le f _ _
  omega

/-- When the whole inserted text fits, the `insert_str` loop succeeds on its
first iteration: the buffer receives the full text at `index` and the full
character count is accepted. -/
theorem insert_str_fits (f : Font) (buf : List Char) (idx : ℕ) (text : List Char)
    (hidx : idx ≤ buf.length)
    (hfit : (string_size f (buf.take idx ++ text ++ buf.drop idx)).isSome = true) :
    UIString.insert_str f buf idx text
      = some (buf.take idx ++ text ++ buf.drop idx, text.length) := by
  unfold UIString.insert_str
  cases htext : text.length with
  | zero =>
    obtain rfl : text = [] := List.length_eq_zero.mp htext
    simp [UIString.insertStrGo, List.take_append_drop]
  | succ n =>
    rw [UIString.insertStrGo]
    have ht : text.take (n + 1) = text := by
      rw [← htext]
      exact List.take_length text
    rw [ht]
    unfold listInsert
    rw [if_pos hidx]
    simp only []
    rw [if_pos hfit]

/-- `UIString::drain` on an in-range request over a measured buffer removes
exactly the requested segment. -/
theorem drain_spec (f : Font) (buf : List Char) (start len : ℕ)
    (hrange : start + len ≤ buf.length)
    (hfit : (string_size f (buf.take start ++ buf.drop (start + len))).isSome = true) :
    UIString.drain f buf start len
      = some (buf.take start ++ buf.drop (start + len),
              some ((buf.drop start).take len)) := by
  unfold UIString.drain listDrain
  rw [if_pos ⟨by omega, hrange⟩]
  simp only []
  rw [if_pos hfit]
  have hlen : start + len - start = len := by omega
  rw [hlen]

/-- `TextBox::delete_selection` on in-range indices over a measured buffer
excises the range between them (in either order), collapses the selection to
the lower bound and reports it as the new caret. -/
theorem delete_selection_spec (f : Font) (st : TextBoxState) (index t : ℕ)
    (hidx : index ≤ st.text.length) (hto : t ≤ st.text.length)
    (hbuf : (string_size f st.text).isSome = true) :
    TextBox.delete_selection f st index t
      = some (min index t,
          { st with
            text := st.text.take (min index t) ++ st.text.drop (max index t)
            selected := some (min index t, none) }) := by
  unfold TextBox.delete_selection
  split_ifs with hlt
  · have hle := le_of_lt hlt
    have hx : index + (t - index) = t := by omega
    rw [show UIString.drain f st.text index (t - index)
        = some (st.text.take index ++ st.text.drop t, some ((st.text.drop index).take (t - index)))
      from by rw [drain_spec f st.text index (t - index) (by omega)
          (by rw [hx]; exact excise_fits f st.text index t hle hbuf), hx]]
    simp only []
    rw [min_eq_left hle, max_eq_right hle]
  · have hle := not_lt.mp hlt
    have hx : t + (index - t) = index := by omega
    rw [show UIString.drain f st.text t (index - t)
        = some (st.text.take t ++ st.text.drop index, some ((st.text.drop t).take (index - t)))
      from by rw [drain_spec f st.text t (index - t) (by omega)
          (by rw [hx]; exact excise_fits f st.text t index hle hbuf), hx]]
    simp only []
    rw [min_eq_right hle, max_eq_left hle]

/-- `TextBox::insert` under in-range indices, a measured buffer and a folded
text that fits: the selection (if any) is excised, the case-folded text is
inserted whole at the caret, and the caret lands after it. -/
theorem insert_spec (f : Font) (st : TextBoxState) (to_index : Option ℕ)
    (index : ℕ) (text : List Char)
    (hidx : index ≤ st.text.length)
    (hto : ∀ t ∈ to_index, t ≤ st.text.length)
    (hbuf : (string_size f st.text).isSome = true)
    (hfit : (string_size f
        ((bufAfterDelete st.text index to_index).take (caretAfterDelete index to_index)
          ++ foldText st.shift text
          ++ (bufAfterDelete st.text index to_index).drop
              (caretAfterDelete index to_index))).isSome = true) :
    TextBox.insert f st to_index index text
      = some { st with
          text := (bufAfterDelete st.text index to_index).take
                (caretAfterDelete index to_index)
              ++ foldText st.shift text
              ++ (bufAfterDelete st.text index to_index).drop
                (caretAfterDelete index to_index)
          selected := some (caretAfterDelete index to_index
              + (foldText st.shift text).length, none) } := by
  cases to_index with
  | none =>
    simp only [bufAfterDelete, caretAfterDelete] at hfit ⊢
    have hred : TextBox.insert f st none index text
        = match UIString.insert_str f st.text index (foldText st.shift text) with
          | none => none
          | some (buf, tlen) =>
            some { st with text := buf, selected := some (index + tlen, none) } := rfl
    rw [hred, insert_str_fits f st.text index (foldText st.shift text) hidx hfit]
  | some t =>
    simp only [bufAfterDelete, caretAfterDelete] at hfit ⊢
    have hred : TextBox.insert f st (some t) index text
        = match TextBox.delete_selection f st index t with
          | none => none
          | some (idx, st1) =>
            match UIString.insert_str f st1.text idx (foldText st1.shift text) with
            | none => none
            | some (buf, tlen) =>
              some { st1 with text := buf, selected := some (idx + tlen, none) } := rfl
    rw [hred, delete_selection_spec f st index t hidx (hto t rfl) hbuf]
    simp only []
    have hlen : min index t
        ≤ (st.text.take (min index t) ++ st.text.drop (max index t)).length := by
      rw [List.length_append, List.length_take]
      have hmin : min index t ≤ st.text.length := le_trans (min_le_left _ _) hidx
      omega
    rw [insert_str_fits f _ (min index t) (foldText st.shift text) hlen hfit]

/-- C5 (amended): with a selection present, ctrl held, in-range indices, a
measured buffer and a folded clipboard text that fits, Ctrl+V replaces the
selected range by the clipboard text case-folded by the shift flag: the
resulting buffer is the old buffer with the selection removed and the folded
clipboard inserted at the caret, and the caret lands after the inserted
text. -/
theorem ctrl_v_pastes_folded_clipboard (f : Font) (clip : Option (List Char))
    (st : TextBoxState) (index : ℕ) (to_index : Option ℕ) (sc : List Char)
    (hsel : st.selected = some (index, to_index))
    (hctrl : st.ctrl = true)
    (hidx : index ≤ st.text.length)
    (hto : ∀ t ∈ to_index, t ≤ st.text.length)
    (hbuf : (string_size f st.text).isSome = true)
    (hfit : (string_size f
        ((bufAfterDelete st.text index to_index).take (caretAfterDelete index to_index)
          ++ foldedClip st.shift clip
          ++ (bufAfterDelete st.text index to_index).drop
              (caretAfterDelete index to_index))).isSome = true) :
    TextBox.event f true clip st (.keyDown (some .v) (some sc))
      = some { st with
          text := (bufAfterDelete st.text index to_index).take
                (caretAfterDelete index to_index)
              ++ foldedClip st.shift clip
              ++ (bufAfterDelete st.text index to_index).drop
                (caretAfterDelete index to_index)
          selected := some (caretAfterDelete index to_index
              + (foldedClip st.shift clip).length, none) } := by
  have hroute : TextBox.event f true clip st (.keyDown (some .v) (some sc))
      = TextBox.keyDown f clip st index to_index .v sc := by
    simp [TextBox.event, Event.hover, hsel]
  have hkey : TextBox.keyDown f clip st index to_index .v sc
      = TextBox.insert f st to_index index (clip.getD []) := by
    simp [TextBox.keyDown, hctrl]
  rw [hroute, hkey]
  rw [insert_spec f st to_index index (clip.getD []) hidx hto hbuf hfit]
  rfl

/-- C5 witness: pasting "X" over the selected range 1–3 of "abcd" (shift up,
every character 1 unit wide) yields "axd" with the caret after the "x". -/
theorem ctrl_v_pastes_folded_clipboard_witness :
    TextBox.event font1 true (some ['X']) tbPasteRange (.keyDown (some .v) (some ['V']))
      = some { tbPasteRange with
          text := (bufAfterDelete tbPasteRange.text 1 (some 3)).take
                (caretAfterDelete 1 (some 3))
              ++ foldedClip tbPasteRange.shift (some ['X'])
              ++ (bufAfterDelete tbPasteRange.text 1 (some 3)).drop
                (caretAfterDelete 1 (some 3))
          selected := some (caretAfterDelete 1 (some 3)
              + (foldedClip tbPasteRange.shift (some ['X'])).length, none) } :=
  ctrl_v_pastes_folded_clipboard font1 (some ['X']) tbPasteRange 1 (some 3) ['V']
    rfl rfl (by decide)
    (by intro t ht; simp at ht; subst ht; decide)
    (by decide) (by decide)

/-- C5 counterexample: with the clipboard holding "A" and shift up, Ctrl+V
into an empty box inserts "a" — the clipboard text case-folded — not the
clipboard text "A" itself, so the buffer does not equal the old buffer with
the clipboard text inserted. -/
theorem ctrl_v_folds_case :
    TextBox.event font1 true (some ['A']) tbPasteTarget (.keyDown (some .v) (some ['V']))
      = some { tbPasteTarget with text := ['a'], selected := some (1, none) }
    ∧ ['a'] ≠ ['A'] := by decide

theorem posToIdxGo_le (f : Font) (scale : ℚ) :
    ∀ (cs : List Char) (pos : ℚ) (i : ℕ),
      TextBox.posToIdxGo f scale cs pos i ≤ i + cs.length := by
  intro cs
  induction cs with
  | nil => intro pos i; simp [TextBox.posToIdxGo]
  | cons ch cs ih =>
    intro pos i
    unfold TextBox.posToIdxGo
    split_ifs with h1 h2
    · simp
    · simp [List.length_cons]
    · have := ih (pos - (f.charW ch : ℚ) * scale) (i + 1)
      simp only [List.length_cons]
      omega

theorem position_to_index_le (f : Font) (st : TextBoxState) (pos : ℚ) :
    TextBox.position_to_index f st pos ≤ st.text.length := by
  unfold TextBox.position_to_index
  split_ifs with h
  · exact Nat.zero_le _
  · have := posToIdxGo_le f (st.surface.w / (f.widthOf st.text : ℚ)) st.text
      (pos * st.surface.w) 0
    omega

theorem remove_some (f : Font) (buf : List Char) (index : ℕ)
    (buf' : List Char) (oc : Option Char)
    (h : UIString.remove f buf index = some (buf', oc)) :
    (oc.isSome = true → buf'.length + 1 = buf.length) ∧ (oc = none → buf' = buf) := by
  unfold UIString.remove at h
  cases hg : buf.get? index with
  | none => rw [hg] at h; exact absurd h (by simp)
  | some c =>
    rw [hg] at h
    simp only [] at h
    have hlt : index < buf.length := List.get?_eq_some.mp hg |>.1
    split_ifs at h with hf
    · rw [Option.some.injEq, Prod.mk.injEq] at h
      obtain ⟨rfl, rfl⟩ := h
      constructor
      · intro
        rw [List.length_append, List.length_take, List.length_drop]
        omega
      · intro hn; cases hn
    · rw [Option.some.injEq, Prod.mk.injEq] at h
      obtain ⟨rfl, rfl⟩ := h
      exact ⟨(by intro hs; cases hs), fun _ => rfl⟩

theorem drain_some (f : Font) (buf : List Char) (start len : ℕ)
    (buf' : List Char) (os : Option (List Char))
    (h : UIString.drain f buf start len = some (buf', os)) :
    (os.isSome = true → buf'.length + len = buf.length ∧ start + len ≤ buf.length)
    ∧ (os = none → buf' = buf) := by
  unfold UIString.drain listDrain at h
  split_ifs at h with hr
  · simp only [] at h
    split_ifs at h with hf
    · rw [Option.some.injEq, Prod.mk.injEq] at h
      obtain ⟨rfl, rfl⟩ := h
      refine ⟨fun _ => ⟨?_, hr.2⟩, by intro hn; cases hn⟩
      rw [List.length_append, List.length_take, List.length_drop]
      omega
    · rw [Option.some.injEq, Prod.mk.injEq] at h
      obtain ⟨rfl, rfl⟩ := h
      exact ⟨(by intro hs; cases hs), fun _ => rfl⟩

theorem delete_selection_selWF (f : Font) (st : TextBoxState) (index t : ℕ)
    (hwf : SelWF st) (hidx : index ≤ st.text.length) (ht : t ≤ st.text.length) :
    ∀ idx st', TextBox.delete_selection f st index t = some (idx, st') →
      idx ≤ st'.text.length ∧ SelWF st'
      ∧ st'.shift = st.shift ∧ st'.ctrl = st.ctrl ∧ st'.surface = st.surface := by
  intro idx st' h
  unfold TextBox.delete_selection at h
  split_ifs at h with hlt
  · cases hd : UIString.drain f st.text index (t - index) with
    | none => rw [hd] at h; exact absurd h (by simp)
    | some out =>
      obtain ⟨buf, or'⟩ := out
      rw [hd] at h
      have hfacts := drain_some f st.text index (t - index) buf or' hd
      cases or' with
      | some r =>
        simp only [Option.some.injEq, Prod.mk.injEq] at h
        obtain ⟨rfl, rfl⟩ := h
        have hb := hfacts.1 rfl
        refine ⟨by dsimp only; omega, ?_, rfl, rfl, rfl⟩
        intro p hp
        simp only [Option.mem_def, Option.some.injEq] at hp
        subst hp
        refine ⟨by dsimp only; omega, ?_⟩
        intro u hu
        cases hu
      | none =>
        simp only [Option.some.injEq, Prod.mk.injEq] at h
        obtain ⟨rfl, rfl⟩ := h
        have hb := hfacts.2 rfl
        subst hb
        exact ⟨hidx, hwf, rfl, rfl, rfl⟩
  · cases hd : UIString.drain f st.text t (index - t) with
    | none => rw [hd] at h; exact absurd h (by simp)
    | some out =>
      obtain ⟨buf, or'⟩ := out
      rw [hd] at h
      have hfacts := drain_some f st.text t (index - t) buf or' hd
      cases or' with
      | some r =>
        simp only [Option.some.injEq, Prod.mk.injEq] at h
        obtain ⟨rfl, rfl⟩ := h
        have hb := hfacts.1 rfl
        refine ⟨by dsimp only; omega, ?_, rfl, rfl, rfl⟩
        intro p hp
        simp only [Option.mem_def, Option.some.injEq] at hp
        subst hp
        refine ⟨by dsimp only; omega, ?_⟩
        intro u hu
        cases hu
      | none =>
        simp only [Option.some.injEq, Prod.mk.injEq] at h
        obtain ⟨rfl, rfl⟩ := h
        have hb := hfacts.2 rfl
        subst hb
        exact ⟨hidx, hwf, rfl, rfl, rfl⟩

theorem insertStrGo_bound (f : Font) (idx : ℕ) (text : List Char) :
    ∀ (i : ℕ) (buf buf' : List Char) (n : ℕ),
      i ≤ text.length → idx ≤ buf.length →
      UIString.insertStrGo f idx text buf i = some (buf', n) →
      idx + n ≤ buf'.length ∧ idx ≤ buf'.length := by
  intro i
  induction i with
  | zero =>
    intro buf buf' n hi hidx h
    unfold UIString.insertStrGo at h
    rw [Option.some.injEq, Prod.mk.injEq] at h
    obtain ⟨rfl, rfl⟩ := h
    omega
  | succ i ih =>
    intro buf buf' n hi hidx h
    rw [UIString.insertStrGo] at h
    unfold listInsert at h
    rw [if_pos hidx] at h
    simp only [] at h
    have hb1 : (buf.take idx ++ text.take (i + 1) ++ buf.drop idx).length
        = buf.length + (i + 1) := by
      rw [List.length_append, List.length_append, List.length_take, List.length_take,
        List.length_drop]
      omega
    split_ifs at h with hf
    · rw [Option.some.injEq, Prod.mk.injEq] at h
      obtain ⟨rfl, rfl⟩ := h
      omega
    · unfold listDrain at h
      split_ifs at h with hrange
      · simp only [] at h
        have hb2 : ((buf.take idx ++ text.take (i + 1) ++ buf.drop idx).take idx
            ++ (buf.take idx ++ text.take (i + 1) ++ buf.drop idx).drop (i + 1)).length
            = idx + buf.length := by
          rw [List.length_append, List.length_take, List.length_drop, hb1]
          omega
        have := ih _ buf' n (by omega) (by omega) h
        omega

theorem insert_str_bound (f : Font) (buf : List Char) (idx : ℕ) (text : List Char)
    (buf' : List Char) (n : ℕ) (hidx : idx ≤ buf.length)
    (h : UIString.insert_str f buf idx text = some (buf', n)) :
    idx + n ≤ buf'.length :=
  (insertStrGo_bound f idx text text.length buf buf' n (le_refl _) hidx h).1

/-- `TextBox::insert` preserves the selection invariant: the caret it leaves
is within the new buffer. -/
theorem insert_selWF (f : Font) (st : TextBoxState) (to_index : Option ℕ)
    (index : ℕ) (text : List Char) (st' : TextBoxState)
    (hwf : SelWF st) (hidx : index ≤ st.text.length)
    (hto : ∀ t ∈ to_index, t ≤ st.text.length)
    (h : TextBox.insert f st to_index index text = some st') : SelWF st' := by
  cases to_index with
  | none =>
    have hred : TextBox.insert f st none index text
        = match UIString.insert_str f st.text index (foldText st.shift text) with
          | none => none
          | some (buf, tlen) =>
            some { st with text := buf, selected := some (index + tlen, none) } := rfl
    rw [hred] at h
    cases hins : UIString.insert_str f st.text index (foldText st.shift text) with
    | none => rw [hins] at h; exact absurd h (by simp)
    | some out =>
      obtain ⟨buf, tlen⟩ := out
      rw [hins] at h
      simp only [Option.some.injEq] at h
      subst h
      have hb := insert_str_bound f st.text index (foldText st.shift text) buf tlen hidx hins
      intro p hp
      simp only [Option.mem_def, Option.some.injEq] at hp
      subst hp
      refine ⟨by dsimp only; omega, ?_⟩
      intro u hu
      cases hu
  | some t =>
    have hred : TextBox.insert f st (some t) index text
        = match TextBox.delete_selection f st index t with
          | none => none
          | some (idx, st1) =>
            match UIString.insert_str f st1.text idx (foldText st1.shift text) with
            | none => none
            | some (buf, tlen) =>
              some { st1 with text := buf, selected := some (idx + tlen, none) } := rfl
    rw [hred] at h
    cases hdel : TextBox.delete_selection f st index t with
    | none => rw [hdel] at h; exact absurd h (by simp)
    | some out =>
      obtain ⟨idx, st1⟩ := out
      rw [hdel] at h
      simp only [] at h
      have hfacts := delete_selection_selWF f st index t hwf hidx (hto t rfl) idx st1 hdel
      cases hins : UIString.insert_str f st1.text idx (foldText st1.shift text) with
      | none => rw [hins] at h; exact absurd h (by simp)
      | some out2 =>
        obtain ⟨buf, tlen⟩ := out2
        rw [hins] at h
        simp only [Option.some.injEq] at h
        subst h
        have hb := insert_str_bound f st1.text idx (foldText st1.shift text) buf tlen
          hfacts.1 hins
        intro p hp
        simp only [Option.mem_def, Option.some.injEq] at hp
        subst hp
        refine ⟨by dsimp only; omega, ?_⟩
        intro u hu
        cases hu

theorem selWF_select (st : TextBoxState) (a : ℕ) (ob : Option ℕ)
    (ha : a ≤ st.text.length) (hb : ∀ u ∈ ob, u ≤ st.text.length) :
    SelWF (TextBox.select st a ob) := by
  intro p hp
  simp only [TextBox.select, Option.mem_def, Option.some.injEq] at hp
  subst hp
  exact ⟨ha, hb⟩

theorem selWF_none_bound {n : ℕ} : ∀ u ∈ (none : Option ℕ), u ≤ n := by
  intro u hu
  cases hu

/-- The generic `KeyDown` arm of `TextBox::event` preserves the selection
invariant. -/
theorem keyDown_selWF (f : Font) (clip : Option (List Char)) (st : TextBoxState)
    (index : ℕ) (to_index : Option ℕ) (kc : Keycode) (sc : List Char)
    (st' : TextBoxState) (hwf : SelWF st)
    (hidx : index ≤ st.text.length)
    (hto : ∀ t ∈ to_index, t ≤ st.text.length)
    (h : TextBox.keyDown f clip st index to_index kc sc = some st') : SelWF st' := by
  have hins : ∀ (txt : List Char),
      TextBox.insert f st to_index index txt = some st' → SelWF st' :=
    fun txt hh => insert_selWF f st to_index index txt st' hwf hidx hto hh
  have hdel2 : ∀ t : ℕ, t ≤ st.text.length →
      (TextBox.delete_selection f st index t).map Prod.snd = some st' → SelWF st' := by
    intro t ht hh
    cases hdel : TextBox.delete_selection f st index t with
    | none => rw [hdel] at hh; exact absurd hh (by simp)
    | some out =>
      obtain ⟨idx, st1⟩ := out
      rw [hdel] at hh
      simp only [Option.map_some', Option.some.injEq] at hh
      subst hh
      exact (delete_selection_selWF f st index t hwf hidx ht idx _ hdel).2.1
  cases kc with
  | backspace =>
    cases to_index with
    | some t =>
      simp only [TextBox.keyDown] at h
      exact hdel2 t (hto t rfl) h
    | none =>
      simp only [TextBox.keyDown] at h
      split_ifs at h with hpos
      · cases hrem : UIString.remove f st.text (index - 1) with
        | none => rw [hrem] at h; exact absurd h (by simp)
        | some out =>
          obtain ⟨buf, oc⟩ := out
          rw [hrem] at h
          have hfacts := remove_some f st.text (index - 1) buf oc hrem
          cases oc with
          | some c =>
            simp only [Option.some.injEq] at h
            subst h
            have hlen := hfacts.1 rfl
            intro p hp
            simp only [Option.mem_def, Option.some.injEq] at hp
            subst hp
            exact ⟨by dsimp only; omega, by intro u hu; cases hu⟩
          | none =>
            simp only [Option.some.injEq] at h
            subst h
            have hb := hfacts.2 rfl
            subst hb
            exact hwf
      · simp only [Option.some.injEq] at h
        subst h
        exact hwf
  | delete =>
    cases to_index with
    | some t =>
      simp only [TextBox.keyDown] at h
      exact hdel2 t (hto t rfl) h
    | none =>
      simp only [TextBox.keyDown] at h
      split_ifs at h with hpos
      · cases hrem : UIString.remove f st.text index with
        | none => rw [hrem] at h; exact absurd h (by simp)
        | some out =>
          obtain ⟨buf, oc⟩ := out
          rw [hrem] at h
          have hfacts := remove_some f st.text index buf oc hrem
          cases oc with
          | some c =>
            simp only [Option.some.injEq] at h
            subst h
            have hlen := hfacts.1 rfl
            intro p hp
            simp only [Option.mem_def, Option.some.injEq] at hp
            subst hp
            exact ⟨by dsimp only; omega, by intro u hu; cases hu⟩
          | none =>
            simp only [Option.some.injEq] at h
            subst h
            have hb := hfacts.2 rfl
            subst hb
            exact hwf
      · simp only [Option.some.injEq] at h
        subst h
        exact hwf
  | left =>
    cases to_index with
    | some t =>
      have ht := hto t rfl
      simp only [TextBox.keyDown] at h
      split_ifs at h with hs h0 heq <;>
        simp only [Option.some.injEq] at h <;> subst h
      · exact selWF_select st index none hidx selWF_none_bound
      · refine selWF_select st index (some (t - 1)) hidx ?_
        intro u hu
        simp only [Option.mem_def, Option.some.injEq] at hu
        subst hu
        omega
      · exact hwf
      · exact selWF_select st (min index t) none (le_trans (min_le_left _ _) hidx)
          selWF_none_bound
    | none =>
      simp only [TextBox.keyDown] at h
      split_ifs at h with h0 hs <;>
        simp only [Option.some.injEq] at h <;> subst h
      · exact hwf
      · refine selWF_select st index (some (index - 1)) hidx ?_
        intro u hu
        simp only [Option.mem_def, Option.some.injEq] at hu
        subst hu
        omega
      · exact selWF_select st (index - 1) none (by omega) selWF_none_bound
  | right =>
    cases to_index with
    | some t =>
      have ht := hto t rfl
      simp only [TextBox.keyDown] at h
      split_ifs at h with hs h0 heq <;>
        simp only [Option.some.injEq] at h <;> subst h
      · exact selWF_select st index none hidx selWF_none_bound
      · refine selWF_select st index (some (t + 1)) hidx ?_
        intro u hu
        simp only [Option.mem_def, Option.some.injEq] at hu
        subst hu
        omega
      · exact hwf
      · exact selWF_select st (max index t) none (max_le hidx ht) selWF_none_bound
    | none =>
      simp only [TextBox.keyDown] at h
      split_ifs at h with h0 hs <;>
        simp only [Option.some.injEq] at h <;> subst h
      · exact hwf
      · refine selWF_select st index (some (index + 1)) hidx ?_
        intro u hu
        simp only [Option.mem_def, Option.some.injEq] at hu
        subst hu
        omega
      · exact selWF_select st (index + 1) none (by omega) selWF_none_bound
  | space =>
    simp only [TextBox.keyDown] at h
    exact hins _ h
  | kp d =>
    simp only [TextBox.keyDown] at h
    exact hins _ h
  | v =>
    simp only [TextBox.keyDown] at h
    split_ifs at h
    · exact hins _ h
    · exact hins _ h
  | c =>
    simp only [TextBox.keyDown] at h
    split_ifs at h
    · simp only [Option.some.injEq] at h
      subst h
      exact hwf
    · exact hins _ h
  | x =>
    simp only [TextBox.keyDown] at h
    split_ifs at h with hc
    · cases to_index with
      | some t =>
        simp only [] at h
        split_ifs at h with hne
        · exact hdel2 t (hto t rfl) h
        · simp only [Option.some.injEq] at h
          subst h
          exact hwf
      | none =>
        simp only [Option.some.injEq] at h
        subst h
        exact hwf
    · exact hins _ h
  | a =>
    simp only [TextBox.keyDown] at h
    split_ifs at h
    · simp only [Option.some.injEq] at h
      subst h
      intro p hp
      simp only [Option.mem_def, Option.some.injEq] at hp
      subst hp
      refine ⟨by dsimp only; omega, ?_⟩
      intro u hu
      simp only [Option.mem_def, Option.some.injEq] at hu
      subst hu
      exact le_refl _
    · exact hins _ h
  | lshift =>
    simp only [TextBox.keyDown] at h
    split_ifs at h
    · simp only [Option.some.injEq] at h; subst h; exact hwf
    · exact hins _ h
  | rshift =>
    simp only [TextBox.keyDown] at h
    split_ifs at h
    · simp only [Option.some.injEq] at h; subst h; exact hwf
    · exact hins _ h
  | lctrl =>
    simp only [TextBox.keyDown] at h
    split_ifs at h
    · simp only [Option.some.injEq] at h; subst h; exact hwf
    · exact hins _ h
  | rctrl =>
    simp only [TextBox.keyDown] at h
    split_ifs at h
    · simp only [Option.some.injEq] at h; subst h; exact hwf
    · exact hins _ h
  | other =>
    simp only [TextBox.keyDown] at h
    split_ifs at h
    · simp only [Option.some.injEq] at h; subst h; exact hwf
    · exact hins _ h

theorem selWF_unselect (st : TextBoxState) : SelWF (TextBox.unselect st) := by
  intro p hp
  simp [TextBox.unselect, Option.mem_def] at hp

theorem selWF_mouse_select (f : Font) (st : TextBoxState) (i1 : ℕ) (ob : Option ℕ)
    (pos : ℚ) (hsel : st.selected = some (i1, ob)) (hwf : SelWF st) :
    SelWF (TextBox.select st i1 (some (TextBox.position_to_index f st pos))) := by
  refine selWF_select st i1 _
    (hwf (i1, ob) (by rw [Option.mem_def]; exact hsel)).1 ?_
  intro u hu
  simp only [Option.mem_def, Option.some.injEq] at hu
  subst hu
  exact position_to_index_le f st pos

/-- `TextBox::event` preserves the selection invariant: after any event,
whenever a selection is present its bounds lie within the buffer. -/
theorem event_selWF (f : Font) (enable : Bool) (clip : Option (List Char))
    (st : TextBoxState) (ev : Event) (st' : TextBoxState) (hwf : SelWF st)
    (h : TextBox.event f enable clip st ev = some st') : SelWF st' := by
  cases ev with
  | elementMove x y =>
    simp only [TextBox.event, Option.some.injEq] at h
    subst h
    exact fun p hp => hwf p hp
  | elementResize w ht2 =>
    simp only [TextBox.event, Option.some.injEq] at h
    subst h
    exact fun p hp => hwf p hp
  | mouseButtonDown btn clicks px py =>
    cases enable with
    | false =>
      simp [TextBox.event] at h
      subst h
      exact hwf
    | true =>
      simp only [TextBox.event, Bool.not_true] at h
      rw [if_neg (by simp)] at h
      cases hh : Event.hover (.mouseButtonDown btn clicks px py) st.surface with
      | true =>
        rw [hh] at h
        cases btn with
        | left =>
          simp only [] at h
          split_ifs at h with hcond
          · cases hsel : st.selected with
            | none => rw [hsel] at h; exact absurd h (by simp)
            | some pr =>
              obtain ⟨i1, ob⟩ := pr
              rw [hsel] at h
              simp only [Option.some.injEq] at h
              subst h
              exact selWF_mouse_select f st i1 ob _ hsel hwf
          · simp only [Option.some.injEq] at h
            subst h
            exact selWF_select st _ none (position_to_index_le f st _) selWF_none_bound
        | middle =>
          simp only [] at h
          simp only [Option.some.injEq] at h
          subst h
          exact hwf
        | right =>
          simp only [] at h
          simp only [Option.some.injEq] at h
          subst h
          exact hwf
        | other =>
          simp only [] at h
          simp only [Option.some.injEq] at h
          subst h
          exact hwf
      | false =>
        rw [hh] at h
        simp only [] at h
        simp only [Option.some.injEq] at h
        subst h
        exact selWF_unselect st
  | mouseMotion mleft px py dx dy =>
    cases enable with
    | false =>
      simp [TextBox.event] at h
      subst h
      exact hwf
    | true =>
      simp only [TextBox.event, Bool.not_true] at h
      rw [if_neg (by simp)] at h
      cases hh : Event.hover (.mouseMotion mleft px py dx dy) st.surface with
      | true =>
        rw [hh] at h
        simp only [] at h
        split_ifs at h with hml
        · cases hsel : st.selected with
          | none =>
            rw [hsel] at h
            simp only [Option.some.injEq] at h
            subst h
            exact hwf
          | some pr =>
            obtain ⟨i1, ob⟩ := pr
            rw [hsel] at h
            simp only [Option.some.injEq] at h
            subst h
            exact selWF_mouse_select f st i1 ob _ hsel hwf
        · simp only [Option.some.injEq] at h
          subst h
          exact hwf
      | false =>
        rw [hh] at h
        simp only [] at h
        simp only [Option.some.injEq] at h
        subst h
        exact hwf
  | mouseButtonUp btn clicks px py =>
    cases enable with
    | false =>
      simp [TextBox.event] at h
      subst h
      exact hwf
    | true =>
      simp only [TextBox.event, Bool.not_true] at h
      rw [if_neg (by simp)] at h
      cases hh : Event.hover (.mouseButtonUp btn clicks px py) st.surface with
      | true =>
        rw [hh] at h
        simp only [] at h
        simp only [Option.some.injEq] at h
        subst h
        exact hwf
      | false =>
        rw [hh] at h
        simp only [] at h
        simp only [Option.some.injEq] at h
        subst h
        exact hwf
  | mouseWheel sx sy dir mx my =>
    cases enable with
    | false =>
      simp [TextBox.event] at h
      subst h
      exact hwf
    | true =>
      simp only [TextBox.event, Bool.not_true] at h
      rw [if_neg (by simp)] at h
      cases hh : Event.hover (.mouseWheel sx sy dir mx my) st.surface with
      | true =>
        rw [hh] at h
        simp only [] at h
        simp only [Option.some.injEq] at h
        subst h
        exact hwf
      | false =>
        rw [hh] at h
        simp only [] at h
        simp only [Option.some.injEq] at h
        subst h
        exact hwf
  | textInput txt =>
    cases enable with
    | false =>
      simp [TextBox.event] at h
      subst h
      exact hwf
    | true =>
      simp only [TextBox.event, Bool.not_true] at h
      rw [if_neg (by simp)] at h
      simp only [Event.hover] at h
      simp only [Option.some.injEq] at h
      subst h
      exact hwf
  | keyDown okc osc =>
    cases enable with
    | false =>
      simp [TextBox.event] at h
      subst h
      exact hwf
    | true =>
      simp only [TextBox.event, Bool.not_true] at h
      rw [if_neg (by simp)] at h
      simp only [Event.hover] at h
      cases okc with
      | none =>
        simp only [] at h
        simp only [Option.some.injEq] at h
        subst h
        exact hwf
      | some kc =>
        cases osc with
        | none =>
          cases kc <;>
            (simp only [] at h
             simp only [Option.some.injEq] at h
             subst h
             exact hwf)
        | some sc =>
          cases kc <;> simp only [] at h
          case lshift | rshift | lctrl | rctrl =>
            simp only [Option.some.injEq] at h
            subst h
            exact fun p hp => hwf p hp
          all_goals
            (cases hsel : st.selected with
            | none =>
              rw [hsel] at h
              simp only [Option.some.injEq] at h
              subst h
              exact hwf
            | some pr =>
              obtain ⟨index, to_index⟩ := pr
              rw [hsel] at h
              have hb := hwf (index, to_index) (by rw [Option.mem_def]; exact hsel)
              exact keyDown_selWF f clip st index to_index _ sc st' hwf hb.1 hb.2 h)
  | keyUp okc osc =>
    cases enable with
    | false =>
      simp [TextBox.event] at h
      subst h
      exact hwf
    | true =>
      simp only [TextBox.event, Bool.not_true] at h
      rw [if_neg (by simp)] at h
      simp only [Event.hover] at h
      cases okc with
      | none =>
        simp only [] at h
        simp only [Option.some.injEq] at h
        subst h
        exact hwf
      | some kc =>
        cases osc with
        | none =>
          cases kc <;>
            (simp only [] at h
             simp only [Option.some.injEq] at h
             subst h
             exact hwf)
        | some sc =>
          cases kc <;>
            (simp only [] at h
             simp only [Option.some.injEq] at h
             subst h
             exact fun p hp => hwf p hp)

/-- C8: over every sequence of `TextBox` events (mouse selection, insertion,
deletion, arrows, clipboard) from any state satisfying the selection
invariant, whenever the selection state holds a value both of its bounds lie
within `[0, buffer length]`. -/
theorem textbox_selection_invariant (f : Font) (enable : Bool)
    (clip : Option (List Char)) (evs : List Event) :
    ∀ st st' : TextBoxState, SelWF st →
      TextBox.runEvents f enable clip st evs = some st' → SelWF st' := by
  induction evs with
  | nil =>
    intro st st' hwf h
    unfold TextBox.runEvents at h
    simp only [Option.some.injEq] at h
    subst h
    exact hwf
  | cons e rest ih =>
    intro st st' hwf h
    unfold TextBox.runEvents at h
    cases he : TextBox.event f enable clip st e with
    | none => rw [he] at h; exact absurd h (by simp)
    | some st1 =>
      rw [he] at h
      exact ih st1 st' (event_selWF f enable clip st e st1 hwf he) h

/-- C8 witness: a Right arrow on the "abcd" box with range 1–3 selected
collapses the selection to a caret at 3, which is within the buffer. -/
theorem textbox_selection_invariant_witness :
    SelWF { tbPasteRange with selected := some (3, none) } :=
  textbox_selection_invariant font1 true none [.keyDown (some .right) (some ['R'])]
    tbPasteRange { tbPasteRange with selected := some (3, none) }
    (by
      intro p hp
      simp only [tbPasteRange, Option.mem_def, Option.some.injEq] at hp
      subst hp
      refine ⟨by decide, ?_⟩
      intro u hu
      simp only [Option.mem_def, Option.some.injEq] at hu
      subst hu
      decide)
    (by decide)

/-- C6 (amended): an `ElementResize` whose size differs from the grid's
stored size stores the new size and re-runs the full layout pass
(`reform`: partition/renormalize the specs, check the remaining space, and
resolve every occupied cell's rectangle); a resize to the identical size is
ignored. -/
theorem grid_resize_full_relayout (g : GridState) (w h : ℚ)
    (hne : w ≠ g.surface.w ∨ h ≠ g.surface.h) :
    Grid.event g (.elementResize w h) =
      Grid.reform { g with surface := { g.surface with w := w, h := h } } := by
  simp only [Grid.event, if_pos hne]

/-- C6 witness: resizing the stale 50×50 grid to 40×40 runs the full layout
pass on the resized grid. -/
theorem grid_resize_full_relayout_witness :
    Grid.event gridStale (.elementResize 40 40) =
      Grid.reform { gridStale with surface := { gridStale.surface with w := 40, h := 40 } } :=
  grid_resize_full_relayout gridStale 40 40 (by decide)

/-- C6 counterexample: an `ElementResize` carrying the grid's current size
does not trigger a layout pass — the stale 10×10 child bounds survive — while
an actual run of the layout pass would change them to the cell's 50×50
rectangle.  "ElementResize always triggers a full re-run of steps 1–3" is
therefore false for same-size resizes. -/
theorem grid_resize_same_size_skips_layout :
    Grid.event gridStale (.elementResize 50 50) = .ok gridStale
    ∧ Grid.reform gridStale ≠ .ok gridStale := by
  constructor
  · have hc : ¬ ((50 : ℚ) ≠ gridStale.surface.w ∨ (50 : ℚ) ≠ gridStale.surface.h) := by
      norm_num [gridStale]
    simp only [Grid.event, if_neg hc]
  · have h : Grid.reform gridStale
        = .ok ⟨⟨0, 0, 50, 50⟩, [.Ratio 1], [.Ratio 1], [(⟨0, 0⟩, ⟨0, 0, 50, 50⟩)]⟩ := by
      norm_num [Grid.reform, reformed, colSpans, rowSpans, gridStale, staticSum,
        renorm, ratioSum, ColType.scale_ration, colCells, ColType.to_px]
    rw [h]
    intro hcontra
    rw [Except.ok.injEq] at hcontra
    have := congrArg GridState.elements hcontra
    simp [gridStale] at this

end SdlSpec
